import Mathlib

/-!
Verification of the QueryCraft repository's heuristic text utilities and API
gateway handlers, shallowly embedded from the TypeScript sources.

Strings are modelled as `List Char` (the sources operate on JavaScript
strings; all patterns involved are ASCII).  JavaScript regular expressions
occurring in the sources are translated into dedicated executable matchers;
each matcher's doc comment cites the regex it implements.  JavaScript string
case folding (`i` flag, `toUpperCase`, `toLowerCase`) agrees with Lean's
ASCII `Char.toUpper`/`Char.toLower` on the ASCII patterns involved.
-/

/-- Strings as lists of characters. -/
abbrev Str := List Char

/-- The single-quote character (U+0027). -/
def sqChar : Char := Char.ofNat 39

/-- The double-quote character (U+0022). -/
def dqChar : Char := Char.ofNat 34

/-- The backtick character (U+0060). -/
def btChar : Char := Char.ofNat 96

/-- The opening-brace character (U+007B). -/
def obChar : Char := Char.ofNat 123

/-- The closing-brace character (U+007D). -/
def cbChar : Char := Char.ofNat 125

/-- JavaScript whitespace (`\s`, and the set trimmed by `String.trim`):
tab, LF, VT, FF, CR, space, NBSP, and the Unicode space separators. -/
def jsWs (c : Char) : Bool :=
  c.toNat = 32 || c.toNat = 9 || c.toNat = 10 || c.toNat = 13 ||
  c.toNat = 11 || c.toNat = 12 ||
  c.toNat = 0xa0 || c.toNat = 0x1680 ||
  (0x2000 ≤ c.toNat && c.toNat ≤ 0x200a) ||
  c.toNat = 0x2028 || c.toNat = 0x2029 ||
  c.toNat = 0x202f || c.toNat = 0x205f ||
  c.toNat = 0x3000 || c.toNat = 0xfeff

/-- JavaScript word character (`\w` = `[A-Za-z0-9_]`). -/
def isWordChar (c : Char) : Bool :=
  (97 ≤ c.toNat && c.toNat ≤ 122) || (65 ≤ c.toNat && c.toNat ≤ 90) ||
  (48 ≤ c.toNat && c.toNat ≤ 57) || c.toNat = 95

/-- ASCII decimal digit (`\d`). -/
def isDigitChar (c : Char) : Bool := 48 ≤ c.toNat && c.toNat ≤ 57

/-- Case-insensitive character comparison (JS `i` flag, ASCII). -/
def ciEq (p c : Char) : Bool := p.toLower = c.toLower

/-- Strip a case-insensitive literal pattern from the front of the input,
returning the rest on success. -/
def stripCI : Str → Str → Option Str
  | [], s => some s
  | _ :: _, [] => none
  | p :: ps, c :: cs => if ciEq p c then stripCI ps cs else none

/-- Match `\s+` at the front: requires at least one whitespace character and
consumes the maximal run (greedy; equivalent to JS backtracking here because
every pattern continuation after `\s+` starts with a non-whitespace
character). -/
def stripWs1 : Str → Option Str
  | c :: cs => if jsWs c then some (cs.dropWhile jsWs) else none
  | [] => none

/-- Match `\s*` at the front (greedy maximal run). -/
def stripWs0 (s : Str) : Str := s.dropWhile jsWs

/-- Match `\w+` at the front (greedy maximal run). -/
def stripWord1 : Str → Option Str
  | c :: cs => if isWordChar c then some (cs.dropWhile isWordChar) else none
  | [] => none

/-- Match the optional quote class `` [`"]? `` at the front. -/
def stripQuoteOpt : Str → Str
  | c :: cs => if c = btChar || c = dqChar then cs else c :: cs
  | [] => []

/-- Is the first character `c`? -/
def headIs (c : Char) : Str → Bool
  | d :: _ => d = c
  | [] => false

/-- Does the first character satisfy `p`? -/
def headSat (p : Char → Bool) : Str → Bool
  | d :: _ => p d
  | [] => false

/-- Does `p` hold on some suffix of `s` (including `s` itself and `[]`)?
This is how an unanchored JS regex `test` scans the subject string. -/
def existsSuffix (p : Str → Bool) : Str → Bool
  | [] => p []
  | c :: t => p (c :: t) || existsSuffix p t

/-- Case-insensitive substring test (JS `/lit/i.test(s)`). -/
def containsCI (pat : Str) (s : Str) : Bool :=
  existsSuffix (fun t => (stripCI pat t).isSome) s

/-- Case-sensitive substring test (JS `/lit/.test(s)`). -/
def containsStr (pat : Str) (s : Str) : Bool :=
  existsSuffix (fun t => pat.isPrefixOf t) s

/-- JS `String.trim`: drop leading and trailing whitespace. -/
def jsTrim (s : Str) : Str :=
  ((s.dropWhile jsWs).reverse.dropWhile jsWs).reverse

/-- JS `String.endsWith(c)` for a single character. -/
def endsWithChar (c : Char) (s : Str) : Bool :=
  match s.getLast? with
  | some d => d = c
  | none => false

section SqlLinter

/-!
## `src/lib/sqlLinter.ts`

`lintSQL` scans SQL text with a fixed sequence of regular-expression checks
and accumulates issues in source order.  The `line` field of `LintIssue` is
declared optional in the source and never populated by `lintSQL`, so it is
omitted here.
-/

/-- Issue severity (`'error' | 'warning' | 'info'`). -/
inductive Severity where
  | error
  | warning
  | info
deriving DecidableEq, Repr

/-- A lint issue: severity, message, optional suggestion. -/
structure LintIssue where
  type : Severity
  message : Str
  suggestion : Option Str
deriving DecidableEq, Repr

/-- Matcher for `/SELECT\s+\*/i` at the front. -/
def selStarAt (s : Str) : Bool :=
  match stripCI "select".toList s with
  | some r =>
    match stripWs1 r with
    | some r2 => headIs '*' r2
    | none => false
  | none => false

/-- `/SELECT\s+\*/i.test(sql)`. -/
def reSelectStar (s : Str) : Bool := existsSuffix selStarAt s

/-- Matcher for `/DELETE\s+FROM\s+\w+\s*(?:;|$)/i` at the front. -/
def delFromAt (s : Str) : Bool :=
  match stripCI "delete".toList s with
  | some r1 =>
    match stripWs1 r1 with
    | some r2 =>
      match stripCI "from".toList r2 with
      | some r3 =>
        match stripWs1 r3 with
        | some r4 =>
          match stripWord1 r4 with
          | some r5 =>
            let r6 := stripWs0 r5
            r6 = [] || headIs ';' r6
          | none => false
        | none => false
      | none => false
    | none => false
  | none => false

/-- `/DELETE\s+FROM\s+\w+\s*(?:;|$)/i.test(sql)`. -/
def reDeleteBare (s : Str) : Bool := existsSuffix delFromAt s

/-- Matcher for `/UPDATE\s+\w+\s+SET/i` at the front. -/
def updSetAt (s : Str) : Bool :=
  match stripCI "update".toList s with
  | some r1 =>
    match stripWs1 r1 with
    | some r2 =>
      match stripWord1 r2 with
      | some r3 =>
        match stripWs1 r3 with
        | some r4 => (stripCI "set".toList r4).isSome
        | none => false
      | none => false
    | none => false
  | none => false

/-- `/UPDATE\s+\w+\s+SET/i.test(sql)`. -/
def reUpdateBare (s : Str) : Bool := existsSuffix updSetAt s

/-- Matcher for `/LIKE\s+['"]%/i` at the front. -/
def likeWildAt (s : Str) : Bool :=
  match stripCI "like".toList s with
  | some r1 =>
    match stripWs1 r1 with
    | some r2 =>
      match r2 with
      | c :: r3 => (c = sqChar || c = dqChar) && headIs '%' r3
      | [] => false
    | none => false
  | none => false

/-- `/LIKE\s+['"]%/i.test(sql)`. -/
def reLikeWild (s : Str) : Bool := existsSuffix likeWildAt s

/-- JS `sql.replace(/''/g, '')`: remove escaped single-quote pairs,
left-to-right, non-overlapping. -/
def removeEscapedQuotes : Str → Str
  | c1 :: c2 :: r =>
    if c1 = sqChar && c2 = sqChar then removeEscapedQuotes r
    else c1 :: removeEscapedQuotes (c2 :: r)
  | [c] => [c]
  | [] => []

/-- Matcher for `/LIMIT\s+\d+/i` at the front (`\d+` tested by its first
digit, which is equivalent for a match-existence test). -/
def limitAt (s : Str) : Bool :=
  match stripCI "limit".toList s with
  | some r1 =>
    match stripWs1 r1 with
    | some r2 => headSat isDigitChar r2
    | none => false
  | none => false

/-- `/LIMIT\s+\d+/i.test(sql)`. -/
def reLimit (s : Str) : Bool := existsSuffix limitAt s

/-- Matcher for `/ORDER\s+BY/i` at the front. -/
def orderByAt (s : Str) : Bool :=
  match stripCI "order".toList s with
  | some r1 =>
    match stripWs1 r1 with
    | some r2 => (stripCI "by".toList r2).isSome
    | none => false
  | none => false

/-- `/ORDER\s+BY/i.test(sql)`. -/
def reOrderBy (s : Str) : Bool := existsSuffix orderByAt s

/-- Matcher for `/=\s*['"]?\d+['"]?/` at the front (trailing `['"]?` is
irrelevant to a match-existence test). -/
def eqNumAt (s : Str) : Bool :=
  match s with
  | c :: r =>
    c = '=' &&
      (let r2 := stripWs0 r
       match r2 with
       | d :: r3 =>
         if d = sqChar || d = dqChar then headSat isDigitChar r3
         else isDigitChar d
       | [] => false)
  | [] => false

/-- `/=\s*['"]?\d+['"]?/.test(sql)`. -/
def reEqNum (s : Str) : Bool := existsSuffix eqNumAt s

/-- Matcher for `/=\s*['"]/` at the front. -/
def eqQuoteAt (s : Str) : Bool :=
  match s with
  | c :: r =>
    c = '=' && (let r2 := stripWs0 r; headSat (fun d => d = sqChar || d = dqChar) r2)
  | [] => false

/-- `/=\s*['"]/.test(sql)`. -/
def reEqQuote (s : Str) : Bool := existsSuffix eqQuoteAt s

/-- One of the ambiguous column names `id|name|created_at|updated_at`
(case-insensitive) at the front, followed by a word boundary. -/
def ambWordAt (s : Str) : Bool :=
  let one := fun (w : Str) =>
    match stripCI w s with
    | some r => !headSat isWordChar r
    | none => false
  one "id".toList || one "name".toList || one "created_at".toList || one "updated_at".toList

/-- Scan for `(?<!\.)\b(?:id|name|created_at|updated_at)\b` given the
character immediately before the current position. -/
def ambScan : Char → Str → Bool
  | prev, [] => (!isWordChar prev) && prev ≠ '.' && ambWordAt []
  | prev, c :: t =>
    ((!isWordChar prev) && prev ≠ '.' && ambWordAt (c :: t)) || ambScan c t

/-- Matcher for `/SELECT[^]*?(?<!\.)\b(?:id|name|created_at|updated_at)\b/i`
at the front.  After `SELECT` the preceding character is the final `t`/`T`,
a word character either way, so `'t'` is passed as the previous character. -/
def ambAt (s : Str) : Bool :=
  match stripCI "select".toList s with
  | some r => ambScan 't' r
  | none => false

/-- `/SELECT[^]*?(?<!\.)\b(?:id|name|created_at|updated_at)\b/i.test(sql)`. -/
def reAmbiguous (s : Str) : Bool := existsSuffix ambAt s

/-- `(\s*SELECT` at the front. -/
def parenSelAt (s : Str) : Bool :=
  match s with
  | c :: r => c = '(' && (stripCI "select".toList (stripWs0 r)).isSome
  | [] => false

/-- Scan for `\(\s*SELECT` anywhere. -/
def parenSelScan (s : Str) : Bool := existsSuffix parenSelAt s

/-- Matcher for `/SELECT[^]*?\(\s*SELECT/i` at the front. -/
def nPlusOneAt (s : Str) : Bool :=
  match stripCI "select".toList s with
  | some r => parenSelScan r
  | none => false

/-- `/SELECT[^]*?\(\s*SELECT/i.test(sql)`. -/
def reNPlusOne (s : Str) : Bool := existsSuffix nPlusOneAt s

/-- `(?:LOWER|UPPER|DATE|YEAR|MONTH)\s*\(` at the front. -/
def fnCallAt (s : Str) : Bool :=
  let one := fun (w : Str) =>
    match stripCI w s with
    | some r => headIs '(' (stripWs0 r)
    | none => false
  one "lower".toList || one "upper".toList || one "date".toList ||
    one "year".toList || one "month".toList

/-- Matcher for `/WHERE[^]*?(?:LOWER|UPPER|DATE|YEAR|MONTH)\s*\(/i` at the
front. -/
def whereFnAt (s : Str) : Bool :=
  match stripCI "where".toList s with
  | some r => existsSuffix fnCallAt r
  | none => false

/-- `/WHERE[^]*?(?:LOWER|UPPER|DATE|YEAR|MONTH)\s*\(/i.test(sql)`. -/
def reWhereFn (s : Str) : Bool := existsSuffix whereFnAt s

/-- Matcher for `/SELECT\s+DISTINCT/i` at the front. -/
def selDistinctAt (s : Str) : Bool :=
  match stripCI "select".toList s with
  | some r1 =>
    match stripWs1 r1 with
    | some r2 => (stripCI "distinct".toList r2).isSome
    | none => false
  | none => false

/-- `/SELECT\s+DISTINCT/i.test(sql)`. -/
def reDistinct (s : Str) : Bool := existsSuffix selDistinctAt s

/-- Matcher for `/ORDER\s+BY\s+(\w+)/i` at the front. -/
def orderByWordAt (s : Str) : Bool :=
  match stripCI "order".toList s with
  | some r1 =>
    match stripWs1 r1 with
    | some r2 =>
      match stripCI "by".toList r2 with
      | some r3 =>
        match stripWs1 r3 with
        | some r4 => headSat isWordChar r4
        | none => false
      | none => false
    | none => false
  | none => false

/-- `/ORDER\s+BY\s+(\w+)/i.test(sql)` (whether `sql.match(...)` is non-null). -/
def reOrderByWord (s : Str) : Bool := existsSuffix orderByWordAt s

/-- Matcher for `/FORM\s+/i` at the front. -/
def formWsAt (s : Str) : Bool :=
  match stripCI "form".toList s with
  | some r => headSat jsWs r
  | none => false

/-- `/FORM\s+/gi.test(sql)`. -/
def reFormTypo (s : Str) : Bool := existsSuffix formWsAt s

/-- Matcher for `/,\s*FROM/i` at the front. -/
def commaFromAt (s : Str) : Bool :=
  match s with
  | c :: r => c = ',' && (stripCI "from".toList (stripWs0 r)).isSome
  | [] => false

/-- `/,\s*FROM/i.test(sql)`. -/
def reCommaFrom (s : Str) : Bool := existsSuffix commaFromAt s

/-- Helper for `countSubstr`: `skip` characters remain to be consumed from
the current match before scanning resumes. -/
def countSubstrAux (pat : Str) : Nat → Str → Nat
  | _, [] => 0
  | Nat.succ k, _ :: t => countSubstrAux pat k t
  | 0, c :: t =>
    if pat.isPrefixOf (c :: t) then
      match pat with
      | [] => countSubstrAux pat 0 t
      | _ :: ps => 1 + countSubstrAux pat ps.length t
    else countSubstrAux pat 0 t

/-- JS `(s.match(/lit/g) || []).length`: number of non-overlapping
left-to-right occurrences of a (nonempty) literal pattern. -/
def countSubstr (pat : Str) (s : Str) : Nat := countSubstrAux pat 0 s


/-- The parenthesis-imbalance message
`` `Unbalanced parentheses: ${openParens} opening, ${closeParens} closing` ``. -/
def parenMsg (o c : Nat) : Str :=
  "Unbalanced parentheses: ".toList ++ (Nat.repr o).toList ++
    " opening, ".toList ++ (Nat.repr c).toList ++ " closing".toList

/-- The parenthesis-imbalance issue. -/
def parenIssue (o c : Nat) : LintIssue :=
  ⟨.error, parenMsg o c, some "Check for missing or extra parentheses".toList⟩

/-- The typo-issue for a suggested correction
(`` `Possible typo: did you mean ${correct}?` ``). -/
def typoIssue (correct : Str) : LintIssue :=
  ⟨.error, "Possible typo: did you mean ".toList ++ correct ++ "?".toList,
    some ("Replace with ".toList ++ correct)⟩

/-- `lintSQL` from `src/lib/sqlLinter.ts`: the fixed sequence of checks, in
source order, each contributing its issues when its regex test fires. -/
def lintSQL (sql : Str) : List LintIssue :=
  let upperSQL := sql.map Char.toUpper
  (if reSelectStar sql then
    [⟨.warning, "Avoid SELECT * - specify columns explicitly for better performance".toList,
      some "List specific column names instead of using *".toList⟩] else []) ++
  (if reDeleteBare sql && !containsCI "where".toList sql then
    [⟨.error, "DELETE without WHERE clause will delete all rows".toList,
      some "Add a WHERE clause to limit affected rows".toList⟩] else []) ++
  (if reUpdateBare sql && !containsCI "where".toList sql then
    [⟨.error, "UPDATE without WHERE clause will update all rows".toList,
      some "Add a WHERE clause to limit affected rows".toList⟩] else []) ++
  (if reLikeWild sql then
    [⟨.warning, "LIKE with leading wildcard cannot use indexes".toList,
      some "Consider using full-text search for better performance".toList⟩] else []) ++
  (if containsStr "!=".toList sql then
    [⟨.info, "Consider using <> instead of != for SQL standard compliance".toList,
      some "Replace != with <>".toList⟩] else []) ++
  (let openParens := sql.count '('
   let closeParens := sql.count ')'
   if openParens ≠ closeParens then [parenIssue openParens closeParens] else []) ++
  (let singleQuotes := (removeEscapedQuotes sql).count sqChar
   if singleQuotes % 2 ≠ 0 then
    [⟨.error, "Unbalanced single quotes".toList,
      some "Check for missing closing quote".toList⟩] else []) ++
  (if reLimit sql && !reOrderBy sql then
    [⟨.warning, "LIMIT without ORDER BY returns non-deterministic results".toList,
      some "Add ORDER BY to ensure consistent results".toList⟩] else []) ++
  (if reEqNum sql && reEqQuote sql then
    [⟨.info, "Possible implicit type conversion in comparison".toList,
      some "Ensure data types match for optimal performance".toList⟩] else []) ++
  (let joinCount := countSubstr "JOIN".toList upperSQL
   if joinCount > 0 then
    (if reAmbiguous sql && joinCount > 0 then
      [⟨.info, "Consider using table aliases for column references in JOINs".toList,
        some "Prefix column names with table aliases (e.g., t.column_name)".toList⟩] else [])
   else []) ++
  (if reNPlusOne sql then
    [⟨.warning, "Correlated subquery in SELECT may cause N+1 performance issues".toList,
      some "Consider using JOIN instead".toList⟩] else []) ++
  (if reWhereFn sql then
    [⟨.warning, "Function on column in WHERE clause prevents index usage".toList,
      some "Consider using expression indexes or refactoring the query".toList⟩] else []) ++
  (if reDistinct sql && reOrderBy sql then
    (if reOrderByWord sql then
      [⟨.info, "Ensure ORDER BY columns are included in SELECT DISTINCT".toList,
        some "Columns in ORDER BY should appear in the SELECT list".toList⟩] else [])
   else []) ++
  (if containsCI "slect".toList sql then [typoIssue "SELECT".toList] else []) ++
  (if reFormTypo sql then [typoIssue "FROM ".toList] else []) ++
  (if containsCI "wehre".toList sql then [typoIssue "WHERE".toList] else []) ++
  (if containsCI "gruop".toList sql then [typoIssue "GROUP".toList] else []) ++
  (if containsCI "oderr".toList sql then [typoIssue "ORDER".toList] else []) ++
  (if reCommaFrom sql then
    [⟨.error, "Trailing comma before FROM clause".toList,
      some "Remove the trailing comma".toList⟩] else []) ++
  (let statements := ((jsTrim sql).splitOn ';').filter (fun st => jsTrim st ≠ [])
   if statements.length > 1 && !endsWithChar ';' (jsTrim sql) then
    [⟨.info, "Consider ending the last statement with a semicolon".toList,
      some "Add ; at the end".toList⟩] else [])

end SqlLinter

section LintTheorems

/-- The prefix of every parenthesis-imbalance message. -/
theorem parenMsg_take (o c : Nat) :
    (parenMsg o c).take 24 = "Unbalanced parentheses: ".toList := by
  have h : ("Unbalanced parentheses: ".toList : Str).length = 24 := by decide
  simp only [parenMsg, List.append_assoc]
  exact List.take_left' h

/-- A message whose first 24 characters differ from
`Unbalanced parentheses: ` is not a parenthesis-imbalance message. -/
theorem msg_ne_parenMsg {m : Str}
    (h : m.take 24 ≠ "Unbalanced parentheses: ".toList) (o c : Nat) :
    m ≠ parenMsg o c := by
  intro e
  exact h (by rw [e, parenMsg_take])

/-- The predicate "severity `error` and message reporting both parenthesis
counts". -/
def isParenReport (o c : Nat) (i : LintIssue) : Bool :=
  decide (i.type = Severity.error ∧ i.message = parenMsg o c)

theorem countP_if_zero {c : Prop} [Decidable c] {p : LintIssue → Bool}
    {l : List LintIssue} (h : List.countP p l = 0) :
    List.countP p (if c then l else []) = 0 := by
  split
  · exact h
  · simp

theorem countP_single_zero {p : LintIssue → Bool} {i : LintIssue}
    (h : p i = false) : List.countP p [i] = 0 := by
  simp [List.countP_cons, h]

theorem isParenReport_ne {o c : Nat} {i : LintIssue}
    (h : i.message ≠ parenMsg o c) : isParenReport o c i = false := by
  simp [isParenReport]
  intro _
  exact h

theorem isParenReport_sev {o c : Nat} {i : LintIssue}
    (h : i.type ≠ Severity.error) : isParenReport o c i = false := by
  simp [isParenReport]
  intro e
  exact absurd e h

end LintTheorems

theorem countP_block {c : Prop} [Decidable c] {p : LintIssue → Bool}
    {i : LintIssue} (h : p i = false) :
    List.countP p (if c then [i] else []) = 0 := by
  split
  · simp [List.countP_cons, h]
  · simp

/-- Take of an appended literal prefix. -/
theorem take_append_left {l₁ : Str} (l₂ : Str) {n : Nat} (h : n ≤ l₁.length) :
    (l₁ ++ l₂).take n = l₁.take n :=
  List.take_append_of_le_length h

theorem typo_ne_parenMsg (w : Str) (o c : Nat) :
    isParenReport o c (typoIssue w) = false := by
  refine isParenReport_ne (msg_ne_parenMsg ?_ o c)
  show (("Possible typo: did you mean ".toList ++ (w ++ "?".toList)).take 24 ≠ _)
  rw [← List.append_assoc, List.append_assoc,
    take_append_left (w ++ "?".toList) (by decide)]
  decide

/-- C2: for every input string, `lintSQL` returns exactly one issue of
severity `error` whose message reports the two parenthesis counts when the
number of `(` characters differs from the number of `)` characters, and no
such issue when the counts are equal. -/
theorem lintSQL_unbalanced_parens (sql : Str) :
    List.countP (isParenReport (sql.count '(') (sql.count ')')) (lintSQL sql) =
      if sql.count '(' = sql.count ')' then 0 else 1 := by
  simp only [lintSQL]
  set o := sql.count '(' with ho
  set c := sql.count ')' with hc
  have hSel : isParenReport o c
      ⟨.warning, "Avoid SELECT * - specify columns explicitly for better performance".toList,
        some "List specific column names instead of using *".toList⟩ = false :=
    isParenReport_ne (msg_ne_parenMsg (by decide) o c)
  have hDel : isParenReport o c
      ⟨.error, "DELETE without WHERE clause will delete all rows".toList,
        some "Add a WHERE clause to limit affected rows".toList⟩ = false :=
    isParenReport_ne (msg_ne_parenMsg (by decide) o c)
  have hUpd : isParenReport o c
      ⟨.error, "UPDATE without WHERE clause will update all rows".toList,
        some "Add a WHERE clause to limit affected rows".toList⟩ = false :=
    isParenReport_ne (msg_ne_parenMsg (by decide) o c)
  have hLike : isParenReport o c
      ⟨.warning, "LIKE with leading wildcard cannot use indexes".toList,
        some "Consider using full-text search for better performance".toList⟩ = false :=
    isParenReport_ne (msg_ne_parenMsg (by decide) o c)
  have hNeq : isParenReport o c
      ⟨.info, "Consider using <> instead of != for SQL standard compliance".toList,
        some "Replace != with <>".toList⟩ = false :=
    isParenReport_ne (msg_ne_parenMsg (by decide) o c)
  have hQuote : isParenReport o c
      ⟨.error, "Unbalanced single quotes".toList,
        some "Check for missing closing quote".toList⟩ = false :=
    isParenReport_ne (msg_ne_parenMsg (by decide) o c)
  have hLimit : isParenReport o c
      ⟨.warning, "LIMIT without ORDER BY returns non-deterministic results".toList,
        some "Add ORDER BY to ensure consistent results".toList⟩ = false :=
    isParenReport_ne (msg_ne_parenMsg (by decide) o c)
  have hImpl : isParenReport o c
      ⟨.info, "Possible implicit type conversion in comparison".toList,
        some "Ensure data types match for optimal performance".toList⟩ = false :=
    isParenReport_ne (msg_ne_parenMsg (by decide) o c)
  have hAlias : isParenReport o c
      ⟨.info, "Consider using table aliases for column references in JOINs".toList,
        some "Prefix column names with table aliases (e.g., t.column_name)".toList⟩ = false :=
    isParenReport_ne (msg_ne_parenMsg (by decide) o c)
  have hN1 : isParenReport o c
      ⟨.warning, "Correlated subquery in SELECT may cause N+1 performance issues".toList,
        some "Consider using JOIN instead".toList⟩ = false :=
    isParenReport_ne (msg_ne_parenMsg (by decide) o c)
  have hFn : isParenReport o c
      ⟨.warning, "Function on column in WHERE clause prevents index usage".toList,
        some "Consider using expression indexes or refactoring the query".toList⟩ = false :=
    isParenReport_ne (msg_ne_parenMsg (by decide) o c)
  have hDist : isParenReport o c
      ⟨.info, "Ensure ORDER BY columns are included in SELECT DISTINCT".toList,
        some "Columns in ORDER BY should appear in the SELECT list".toList⟩ = false :=
    isParenReport_ne (msg_ne_parenMsg (by decide) o c)
  have hComma : isParenReport o c
      ⟨.error, "Trailing comma before FROM clause".toList,
        some "Remove the trailing comma".toList⟩ = false :=
    isParenReport_ne (msg_ne_parenMsg (by decide) o c)
  have hSemi : isParenReport o c
      ⟨.info, "Consider ending the last statement with a semicolon".toList,
        some "Add ; at the end".toList⟩ = false :=
    isParenReport_ne (msg_ne_parenMsg (by decide) o c)
  simp only [List.countP_append, countP_block hSel, countP_block hDel,
    countP_block hUpd, countP_block hLike, countP_block hNeq,
    countP_block hQuote, countP_block hLimit, countP_block hImpl,
    countP_if_zero (countP_block hAlias), countP_block hN1,
    countP_block hFn, countP_if_zero (countP_block hDist),
    countP_block (typo_ne_parenMsg "SELECT".toList o c),
    countP_block (typo_ne_parenMsg "FROM ".toList o c),
    countP_block (typo_ne_parenMsg "WHERE".toList o c),
    countP_block (typo_ne_parenMsg "GROUP".toList o c),
    countP_block (typo_ne_parenMsg "ORDER".toList o c),
    countP_block hComma, countP_block hSemi,
    Nat.add_zero, Nat.zero_add]
  by_cases h : o = c
  · simp [h]
  · simp [h, List.countP_cons, isParenReport, parenIssue]

/-- The DELETE-without-WHERE issue pushed by `lintSQL`. -/
def deleteNoWhereIssue : LintIssue :=
  ⟨.error, "DELETE without WHERE clause will delete all rows".toList,
    some "Add a WHERE clause to limit affected rows".toList⟩

/-- C5: `lintSQL` on `DELETE FROM users;` returns the DELETE-without-WHERE
issue, which has severity `error`; on `DELETE FROM users WHERE id = 1;` it
returns no issue of that kind. -/
theorem lintSQL_delete_examples :
    (deleteNoWhereIssue ∈ lintSQL "DELETE FROM users;".toList ∧
      deleteNoWhereIssue.type = Severity.error) ∧
    (∀ i ∈ lintSQL "DELETE FROM users WHERE id = 1;".toList,
      i.message ≠ deleteNoWhereIssue.message) := by
  decide

section SqlParser

/-!
## `src/lib/sqlParser.ts`

`parseSQLSchema` repeatedly matches
`/CREATE\s+TABLE\s+(?:IF\s+NOT\s+EXISTS\s+)?[`"]?(\w+)[`"]?\s*\(([\s\S]*?)\);/gi`
against the input, splits each columns block on `,`, and classifies each
trimmed nonempty piece as a constraint line or a column definition.
-/

/-- A parsed column (`TableColumn`). -/
structure TableColumn where
  name : Str
  type : Str
  isPrimaryKey : Bool
  isForeignKey : Bool
  references : Option (Str × Str)
deriving DecidableEq, Repr

/-- A parsed table (`TableSchema`). -/
structure TableSchema where
  name : Str
  columns : List TableColumn
deriving DecidableEq, Repr

/-- A relationship edge. -/
structure Relationship where
  fromTable : Str
  fromColumn : Str
  toTable : Str
  toColumn : Str
deriving DecidableEq, Repr

/-- The result record (`SchemaParseResult`). -/
structure SchemaParseResult where
  tables : List TableSchema
  relationships : List Relationship
deriving DecidableEq, Repr

/-- Expect a specific character at the front. -/
def expectChar (c : Char) : Str → Option Str
  | d :: r => if d = c then some r else none
  | [] => none

/-- Match the group `(?:IF\s+NOT\s+EXISTS\s+)` at the front. -/
def stripIfNotExists (s : Str) : Option Str :=
  match stripCI "if".toList s with
  | some r1 =>
    match stripWs1 r1 with
    | some r2 =>
      match stripCI "not".toList r2 with
      | some r3 =>
        match stripWs1 r3 with
        | some r4 =>
          match stripCI "exists".toList r4 with
          | some r5 => stripWs1 r5
          | none => none
        | none => none
      | none => none
    | none => none
  | none => none

/-- Match `` [`"]?(\w+)[`"]? `` at the front, returning the captured word and
the rest. -/
def stripWordCap (s : Str) : Option (Str × Str) :=
  let s1 := stripQuoteOpt s
  match s1 with
  | c :: _ =>
    if isWordChar c then
      some (s1.takeWhile isWordChar, stripQuoteOpt (s1.dropWhile isWordChar))
    else none
  | [] => none

/-- Match `` [`"]?(\w+)[`"]?\s*\( `` at the front, returning the captured
table name and the rest after the opening parenthesis. -/
def stripTableName (s : Str) : Option (Str × Str) :=
  let s1 := stripQuoteOpt s
  if headSat isWordChar s1 then
    (expectChar '(' (stripWs0 (stripQuoteOpt (s1.dropWhile isWordChar)))).bind fun r2 =>
    some (s1.takeWhile isWordChar, r2)
  else none

/-- Split at the first occurrence of `);` (the lazy `([\s\S]*?)\);` capture):
returns the text before it and the text after it. -/
def splitAtCloseSemi : Str → Option (Str × Str)
  | [] => none
  | c :: t =>
    if c = ')' && headIs ';' t then some ([], t.drop 1)
    else
      match splitAtCloseSemi t with
      | some (b, r) => some (c :: b, r)
      | none => none

/-- `` [`"]?(\w+)[`"]?\s*\(([\s\S]*?)\); `` at the front: table name, columns
block, rest. -/
def tableNameAndBlock (r : Str) : Option (Str × Str × Str) :=
  (stripTableName r).bind fun nr =>
  (splitAtCloseSemi nr.2).bind fun br =>
  some (nr.1, br.1, br.2)

/-- Try the table regex anchored at the front of `s`.  The optional
`IF NOT EXISTS` group is attempted first (greedy `?`), falling back to the
groupless alternative, mirroring JS backtracking; all other pieces are
deterministic maximal-munch. -/
def tryCreateAt (s : Str) : Option (Str × Str × Str) :=
  (stripCI "create".toList s).bind fun r1 =>
  (stripWs1 r1).bind fun r2 =>
  (stripCI "table".toList r2).bind fun r3 =>
  (stripWs1 r3).bind fun r4 =>
  match stripIfNotExists r4 with
  | some r5 =>
    match tableNameAndBlock r5 with
    | some x => some x
    | none => tableNameAndBlock r4
  | none => tableNameAndBlock r4

/-- Leftmost match of the table regex (JS `exec` scanning). -/
def findCreate : Str → Option (Str × Str × Str)
  | [] => none
  | c :: t =>
    match tryCreateAt (c :: t) with
    | some x => some x
    | none => findCreate t

/-- `w1\s+w2` at the front (case-insensitive). -/
def twoWordAt (w1 w2 : Str) (s : Str) : Bool :=
  match stripCI w1 s with
  | some r1 =>
    match stripWs1 r1 with
    | some r2 => (stripCI w2 r2).isSome
    | none => false
  | none => false

/-- `/^\s*(PRIMARY\s+KEY|FOREIGN\s+KEY|UNIQUE|CHECK|CONSTRAINT)/i.test(line)`. -/
def constraintStart (line : Str) : Bool :=
  let r := stripWs0 line
  twoWordAt "primary".toList "key".toList r ||
  twoWordAt "foreign".toList "key".toList r ||
  (stripCI "unique".toList r).isSome ||
  (stripCI "check".toList r).isSome ||
  (stripCI "constraint".toList r).isSome

/-- `/PRIMARY\s+KEY/i.test(line)`. -/
def rePrimaryKey (line : Str) : Bool :=
  existsSuffix (twoWordAt "primary".toList "key".toList) line

/-- Leftmost match of an `Option`-valued matcher (JS `String.match`). -/
def findMatch {α : Type} (m : Str → Option α) : Str → Option α
  | [] => m []
  | c :: t =>
    match m (c :: t) with
    | some x => some x
    | none => findMatch m t

/-- Matcher for
`/FOREIGN\s+KEY\s*\([`"]?(\w+)[`"]?\)\s*REFERENCES\s+[`"]?(\w+)[`"]?\s*\([`"]?(\w+)[`"]?\)/i`
at the front. -/
def fkAt (s : Str) : Option (Str × Str × Str) := do
  let r ← stripCI "foreign".toList s
  let r ← stripWs1 r
  let r ← stripCI "key".toList r
  let r ← expectChar '(' (stripWs0 r)
  let (fromCol, r) ← stripWordCap r
  let r ← expectChar ')' r
  let r ← stripCI "references".toList (stripWs0 r)
  let r ← stripWs1 r
  let (toTable, r) ← stripWordCap r
  let r ← expectChar '(' (stripWs0 r)
  let (toCol, r) ← stripWordCap r
  let _ ← expectChar ')' r
  return (fromCol, toTable, toCol)

/-- `line.match(/FOREIGN\s+KEY\s*\(...\)/i)`: leftmost match. -/
def fkMatch (line : Str) : Option (Str × Str × Str) := findMatch fkAt line

/-- Matcher for `/REFERENCES\s+[`"]?(\w+)[`"]?\s*\([`"]?(\w+)[`"]?\)/i` at
the front. -/
def refAt (s : Str) : Option (Str × Str) := do
  let r ← stripCI "references".toList s
  let r ← stripWs1 r
  let (tt, r) ← stripWordCap r
  let r ← expectChar '(' (stripWs0 r)
  let (tc, r) ← stripWordCap r
  let _ ← expectChar ')' r
  return (tt, tc)

/-- `line.match(/REFERENCES\s+.../i)`: leftmost match. -/
def refMatch (line : Str) : Option (Str × Str) := findMatch refAt line

/-- Matcher for the anchored column definition
`/^[`"]?(\w+)[`"]?\s+(\w+(?:\([^)]+\))?)/i`: returns the column name and the
captured type text. -/
def colMatch (line : Str) : Option (Str × Str) :=
  match stripWordCap line with
  | some (name, r1) =>
    match stripWs1 r1 with
    | some r2 =>
      match r2 with
      | d :: _ =>
        if isWordChar d then
          let tw := r2.takeWhile isWordChar
          let r3 := r2.dropWhile isWordChar
          match r3 with
          | '(' :: r4 =>
            let inner := r4.takeWhile (fun x => x ≠ ')')
            let r5 := r4.dropWhile (fun x => x ≠ ')')
            if inner ≠ [] ∧ headIs ')' r5 then
              some (name, tw ++ '(' :: (inner ++ [')']))
            else some (name, tw)
          | _ => some (name, tw)
        else none
      | [] => none
    | none => none
  | none => none

/-- Mark the first column named `n` as a foreign key referencing `tt.tc`
(the `columns.find` mutation in the source). -/
def markFK : List TableColumn → Str → Str → Str → List TableColumn
  | [], _, _, _ => []
  | col :: cs, n, tt, tc =>
    if col.name = n then
      { col with isForeignKey := true, references := some (tt, tc) } :: cs
    else col :: markFK cs n tt tc

/-- Process the trimmed, comma-split lines of a columns block, carrying the
columns accumulated so far; returns the final columns and the relationship
edges pushed, in source order. -/
def processLines (tableName : Str) (cols : List TableColumn) :
    List Str → List TableColumn × List Relationship
  | [] => (cols, [])
  | line :: rest =>
    if constraintStart line then
      match fkMatch line with
      | some (fromCol, toTable, toCol) =>
        let res := processLines tableName (markFK cols fromCol toTable toCol) rest
        (res.1, ⟨tableName, fromCol, toTable, toCol⟩ :: res.2)
      | none => processLines tableName cols rest
    else
      match colMatch line with
      | some (colName, colType) =>
        let isPK := rePrimaryKey line
        let isFK := containsCI "references".toList line
        let refOpt := if isFK then refMatch line else none
        let col : TableColumn := ⟨colName, colType.map Char.toUpper, isPK, isFK, refOpt⟩
        let rels :=
          match refOpt with
          | some (tt, tc) => [(⟨tableName, colName, tt, tc⟩ : Relationship)]
          | none => []
        let res := processLines tableName (cols ++ [col]) rest
        (res.1, rels ++ res.2)
      | none => processLines tableName cols rest

/-- Process one matched table: split the columns block on `,`, trim, drop
empties, and fold `processLines` from an empty column list. -/
def processBlock (tableName : Str) (block : Str) :
    List TableColumn × List Relationship :=
  processLines tableName []
    (((block.splitOn ',').map jsTrim).filter (fun l => l ≠ []))

/-- The `while (match = tableRegex.exec(sql))` loop, with explicit fuel;
each iteration consumes at least the matched `CREATE ... );` text, so any
fuel of at least the input length suffices (see `parseLoopFuel_stable`). -/
def parseLoopFuel : Nat → Str → List TableSchema × List Relationship
  | 0, _ => ([], [])
  | Nat.succ f, s =>
    match findCreate s with
    | none => ([], [])
    | some (name, block, rest) =>
      let pb := processBlock name block
      let pr := parseLoopFuel f rest
      (⟨name, pb.1⟩ :: pr.1, pb.2 ++ pr.2)

/-- `parseSQLSchema` from `src/lib/sqlParser.ts`. -/
def parseSQLSchema (sql : Str) : SchemaParseResult :=
  ⟨(parseLoopFuel (sql.length + 1) sql).1, (parseLoopFuel (sql.length + 1) sql).2⟩

end SqlParser

section ParserTheorems

/-- C4: `parseSQLSchema` on
`CREATE TABLE t (id INTEGER PRIMARY KEY, name VARCHAR(50));` returns exactly
one table `t` with the two columns `id` (flagged primary key) then `name`,
and no relationships. -/
theorem parseSQLSchema_two_columns :
    parseSQLSchema "CREATE TABLE t (id INTEGER PRIMARY KEY, name VARCHAR(50));".toList =
      ⟨[⟨"t".toList,
          [⟨"id".toList, "INTEGER".toList, true, false, none⟩,
           ⟨"name".toList, "VARCHAR(50)".toList, false, false, none⟩]⟩], []⟩ := by
  decide

/-- Every relationship produced by `processLines` for a table carries that
table's name as `fromTable`. -/
theorem processLines_fromTable (n : Str) :
    ∀ (lines : List Str) (cols : List TableColumn),
      ∀ r ∈ (processLines n cols lines).2, r.fromTable = n := by
  intro lines
  induction lines with
  | nil =>
    intro cols r hr
    simp [processLines] at hr
  | cons line rest ih =>
    intro cols r hr
    simp only [processLines] at hr
    split at hr
    · cases hm : fkMatch line with
      | some x =>
        obtain ⟨a, b, c⟩ := x
        rw [hm] at hr
        simp only at hr
        rcases List.mem_cons.mp hr with h | h
        · rw [h]
        · exact ih _ r h
      | none =>
        rw [hm] at hr
        exact ih _ r hr
    · cases hm : colMatch line with
      | some x =>
        obtain ⟨a, b⟩ := x
        rw [hm] at hr
        simp only at hr
        rcases List.mem_append.mp hr with h | h
        · split at h
          · rcases List.mem_singleton.mp h with rfl
            rfl
          · simp at h
        · exact ih _ r h
      | none =>
        rw [hm] at hr
        exact ih _ r hr

/-- Relationship sources produced by `parseLoopFuel` always name a parsed
table. -/
theorem parseLoopFuel_fromTable :
    ∀ (fuel : Nat) (s : Str), ∀ r ∈ (parseLoopFuel fuel s).2,
      ∃ tb ∈ (parseLoopFuel fuel s).1, tb.name = r.fromTable := by
  intro fuel
  induction fuel with
  | zero =>
    intro s r hr
    simp [parseLoopFuel] at hr
  | succ f ih =>
    intro s r hr
    simp only [parseLoopFuel] at hr ⊢
    cases hm : findCreate s with
    | none =>
      rw [hm] at hr
      have hr' : r ∈ ([] : List Relationship) := hr
      simp at hr'
    | some x =>
      obtain ⟨name, block, rest⟩ := x
      rw [hm] at hr
      have hr' : r ∈ (processBlock name block).2 ++ (parseLoopFuel f rest).2 := hr
      show ∃ tb ∈ (⟨name, (processBlock name block).1⟩ :: (parseLoopFuel f rest).1 :
          List TableSchema), tb.name = r.fromTable
      rcases List.mem_append.mp hr' with h | h
      · refine ⟨⟨name, (processBlock name block).1⟩, List.mem_cons_self .., ?_⟩
        exact (processLines_fromTable name _ _ r h).symm
      · obtain ⟨tb, htb, hname⟩ := ih rest r h
        exact ⟨tb, List.mem_cons_of_mem _ htb, hname⟩

/-- C10: for every input string, every relationship returned by
`parseSQLSchema` has a `fromTable` naming some table in the returned list. -/
theorem parseSQLSchema_fromTable_closed (sql : Str) (r : Relationship)
    (hr : r ∈ (parseSQLSchema sql).relationships) :
    ∃ tb ∈ (parseSQLSchema sql).tables, tb.name = r.fromTable :=
  parseLoopFuel_fromTable _ sql r hr

/-- Witness for C10 at a concrete schema with one foreign key. -/
theorem parseSQLSchema_fromTable_witness :
    ∃ tb ∈ (parseSQLSchema
        "CREATE TABLE orders (user_id INTEGER, FOREIGN KEY (user_id) REFERENCES users(id));".toList).tables,
      tb.name =
        (⟨"orders".toList, "user_id".toList, "users".toList, "id".toList⟩ : Relationship).fromTable :=
  parseSQLSchema_fromTable_closed _ _ (by decide)

end ParserTheorems

section CharClassLemmas

/-- A word character is not JavaScript whitespace. -/
theorem wordChar_not_ws {c : Char} (h : isWordChar c = true) : jsWs c = false := by
  simp only [isWordChar, Bool.or_eq_true, Bool.and_eq_true, decide_eq_true_eq] at h
  simp only [jsWs, Bool.or_eq_false_iff, Bool.and_eq_false_iff, decide_eq_false_iff_not]
  omega

/-- A word character differs from any non-word character. -/
theorem wordChar_ne {c d : Char} (h : isWordChar c = true)
    (hd : isWordChar d = false) : c ≠ d := by
  intro e
  rw [e, hd] at h
  cases h

theorem takeWhile_append_all {p : Char → Bool} :
    ∀ {t : Str}, (∀ c ∈ t, p c = true) → ∀ {d : Char}, p d = false → ∀ {x : Str},
      (t ++ d :: x).takeWhile p = t := by
  intro t
  induction t with
  | nil =>
    intro _ d hd x
    simp [List.takeWhile_cons, hd]
  | cons a t ih =>
    intro h d hd x
    have ha := h a (List.mem_cons_self a t)
    simp only [List.cons_append, List.takeWhile_cons, ha, if_true]
    rw [ih (fun c hc => h c (List.mem_cons_of_mem _ hc)) hd]

theorem dropWhile_append_all {p : Char → Bool} :
    ∀ {t : Str}, (∀ c ∈ t, p c = true) → ∀ {d : Char}, p d = false → ∀ {x : Str},
      (t ++ d :: x).dropWhile p = d :: x := by
  intro t
  induction t with
  | nil =>
    intro _ d hd x
    simp [List.dropWhile_cons, hd]
  | cons a t ih =>
    intro h d hd x
    have ha := h a (List.mem_cons_self a t)
    simp only [List.cons_append, List.dropWhile_cons, ha, if_true]
    exact ih (fun c hc => h c (List.mem_cons_of_mem _ hc)) hd

end CharClassLemmas

section C3Amended

/-- Unfolding lemma for `stripCI`. -/
theorem stripCI_cons (p c : Char) (ps cs : Str) :
    stripCI (p :: ps) (c :: cs) = if ciEq p c then stripCI ps cs else none := rfl

/-- The columns block of the canonical foreign-key `CREATE TABLE` statement. -/
def c3Body : Str :=
  "user_id INTEGER, FOREIGN KEY (user_id) REFERENCES users(id)".toList

/-- The text following the table name in the canonical statement. -/
def c3Tail : Str :=
  " (user_id INTEGER, FOREIGN KEY (user_id) REFERENCES users(id));".toList

/-- `CREATE TABLE t (user_id INTEGER, FOREIGN KEY (user_id) REFERENCES users(id));`
for a table name `t`. -/
def c3Input (t : Str) : Str := "CREATE TABLE ".toList ++ (t ++ c3Tail)

/-- A table name of word characters can never begin an `IF NOT EXISTS`
group when followed by ` (`. -/
theorem stripIfNotExists_word (t : Str) (hw : ∀ d ∈ t, isWordChar d = true)
    (y : Str) : stripIfNotExists (t ++ ' ' :: '(' :: y) = none := by
  match t with
  | [] => rfl
  | [c] =>
    show stripIfNotExists (c :: ' ' :: '(' :: y) = none
    have h1 : stripCI "if".toList (c :: ' ' :: '(' :: y) = none := by
      rw [show ("if".toList : Str) = 'i' :: ['f'] from rfl, stripCI_cons]
      cases hci : ciEq 'i' c with
      | false => simp
      | true =>
        simp only [if_true, stripCI_cons]
        exact if_neg (by decide)
    unfold stripIfNotExists
    rw [h1]
  | c :: d :: t₂ =>
    show stripIfNotExists (c :: d :: (t₂ ++ ' ' :: '(' :: y)) = none
    have hd : isWordChar d = true := hw d (by simp)
    unfold stripIfNotExists
    rw [show ("if".toList : Str) = 'i' :: ['f'] from rfl, stripCI_cons]
    cases hci : ciEq 'i' c with
    | false => simp
    | true =>
      simp only [if_true]
      rw [stripCI_cons]
      cases hcf : ciEq 'f' d with
      | false => simp
      | true =>
        simp only [if_true, stripCI]
        match t₂ with
        | [] =>
          have h2 : stripWs1 ([] ++ ' ' :: '(' :: y) = some ('(' :: y) := by
            show stripWs1 (' ' :: '(' :: y) = some ('(' :: y)
            rw [show stripWs1 (' ' :: '(' :: y) =
              if jsWs ' ' then some (List.dropWhile jsWs ('(' :: y)) else none from rfl]
            rw [if_pos (by decide), List.dropWhile_cons, if_neg (by decide)]
          rw [h2]
          rfl
        | e :: t₃ =>
          have he : isWordChar e = true := hw e (by simp)
          have h2 : stripWs1 ((e :: t₃) ++ ' ' :: '(' :: y) = none := by
            simp [stripWs1, wordChar_not_ws he]
          rw [h2]

end C3Amended

/-- `stripTableName` on a word-character table name followed by ` (`. -/
theorem stripTableName_word (t : Str) (hw : ∀ d ∈ t, isWordChar d = true)
    (hne : t ≠ []) (y : Str) :
    stripTableName (t ++ ' ' :: '(' :: y) = some (t, y) := by
  obtain ⟨c, t', rfl⟩ := List.exists_cons_of_ne_nil hne
  have hc : isWordChar c = true := hw c (by simp)
  have hcond : (c = btChar || c = dqChar) = false := by
    have h1 : c ≠ btChar := wordChar_ne hc (by decide)
    have h2 : c ≠ dqChar := wordChar_ne hc (by decide)
    simp [h1, h2]
  have hq : stripQuoteOpt ((c :: t') ++ ' ' :: '(' :: y) = (c :: t') ++ ' ' :: '(' :: y := by
    rw [show stripQuoteOpt ((c :: t') ++ ' ' :: '(' :: y) =
      if c = btChar || c = dqChar then t' ++ ' ' :: '(' :: y
      else c :: (t' ++ ' ' :: '(' :: y) from rfl, hcond]
    simp
  show (let s1 := stripQuoteOpt ((c :: t') ++ ' ' :: '(' :: y)
    if headSat isWordChar s1 then
      (expectChar '(' (stripWs0 (stripQuoteOpt (s1.dropWhile isWordChar)))).bind fun r2 =>
      some (s1.takeWhile isWordChar, r2)
    else none) = some (c :: t', y)
  rw [hq]
  show (if headSat isWordChar ((c :: t') ++ ' ' :: '(' :: y) then
      (expectChar '(' (stripWs0 (stripQuoteOpt
        (((c :: t') ++ ' ' :: '(' :: y).dropWhile isWordChar)))).bind fun r2 =>
      some (((c :: t') ++ ' ' :: '(' :: y).takeWhile isWordChar, r2)
    else none) = some (c :: t', y)
  rw [show headSat isWordChar ((c :: t') ++ ' ' :: '(' :: y) = isWordChar c from rfl]
  rw [if_pos hc]
  rw [dropWhile_append_all hw (by decide), takeWhile_append_all hw (by decide)]
  rfl

/-- The table regex matches the canonical foreign-key statement at its
front, producing the table name, the columns block, and an empty rest. -/
theorem tryCreateAt_c3 (t : Str) (hw : ∀ d ∈ t, isWordChar d = true)
    (hne : t ≠ []) :
    tryCreateAt (c3Input t) = some (t, c3Body, []) := by
  obtain ⟨c, t', rfl⟩ := List.exists_cons_of_ne_nil hne
  have hc : isWordChar c = true := hw c (by simp)
  have e1 : stripCI "create".toList (c3Input (c :: t')) =
      some (" TABLE ".toList ++ ((c :: t') ++ c3Tail)) := rfl
  have e2 : stripWs1 (" TABLE ".toList ++ ((c :: t') ++ c3Tail)) =
      some ("TABLE ".toList ++ ((c :: t') ++ c3Tail)) := rfl
  have e3 : stripCI "table".toList ("TABLE ".toList ++ ((c :: t') ++ c3Tail)) =
      some (' ' :: ((c :: t') ++ c3Tail)) := rfl
  have e4 : stripWs1 (' ' :: ((c :: t') ++ c3Tail)) = some ((c :: t') ++ c3Tail) := by
    rw [show stripWs1 (' ' :: ((c :: t') ++ c3Tail)) =
      if jsWs ' ' then some (List.dropWhile jsWs ((c :: t') ++ c3Tail)) else none from rfl]
    rw [if_pos (by decide)]
    rw [show (c :: t') ++ c3Tail = c :: (t' ++ c3Tail) from rfl]
    rw [List.dropWhile_cons, if_neg (by simp [wordChar_not_ws hc])]
  have e5 : stripIfNotExists ((c :: t') ++ c3Tail) = none := by
    rw [show ((c :: t') ++ c3Tail : Str) = (c :: t') ++ ' ' :: '(' ::
      (c3Body ++ ");".toList) from rfl]
    exact stripIfNotExists_word (c :: t') hw _
  have e6 : tableNameAndBlock ((c :: t') ++ c3Tail) = some (c :: t', c3Body, []) := by
    rw [show ((c :: t') ++ c3Tail : Str) = (c :: t') ++ ' ' :: '(' ::
      (c3Body ++ ");".toList) from rfl]
    unfold tableNameAndBlock
    rw [stripTableName_word (c :: t') hw (by simp) _]
    rw [Option.some_bind]
    rw [show splitAtCloseSemi (c3Body ++ ");".toList) = some (c3Body, []) from by decide]
    rfl
  unfold tryCreateAt
  rw [e1, Option.some_bind, e2, Option.some_bind, e3, Option.some_bind, e4,
    Option.some_bind, e5, e6]

/-- Unfolding lemma for `findCreate` on a nonempty input. -/
theorem findCreate_cons (c : Char) (t : Str) :
    findCreate (c :: t) =
      match tryCreateAt (c :: t) with
      | some x => some x
      | none => findCreate t := rfl

/-- The leftmost table match in the canonical foreign-key statement. -/
theorem findCreate_c3 (t : Str) (hw : ∀ d ∈ t, isWordChar d = true)
    (hne : t ≠ []) :
    findCreate (c3Input t) = some (t, c3Body, []) := by
  show findCreate ('C' :: ("REATE TABLE ".toList ++ (t ++ c3Tail))) = _
  rw [findCreate_cons]
  rw [show ('C' :: ("REATE TABLE ".toList ++ (t ++ c3Tail)) : Str) = c3Input t from rfl]
  rw [tryCreateAt_c3 t hw hne]

/-- C3 counterexample: when the `FOREIGN KEY` constraint line precedes the
declaration of `user_id`, `parseSQLSchema` produces the relationship edge
but leaves the returned `user_id` column's foreign-key flag unset. -/
theorem parseSQLSchema_fk_flag_cex :
    parseSQLSchema
        "CREATE TABLE orders (FOREIGN KEY (user_id) REFERENCES users(id), user_id INTEGER);".toList =
      ⟨[⟨"orders".toList, [⟨"user_id".toList, "INTEGER".toList, false, false, none⟩]⟩],
       [⟨"orders".toList, "user_id".toList, "users".toList, "id".toList⟩]⟩ := by
  decide

/-- C3 (amended): for every table name `t` made of word characters, the
statement `CREATE TABLE t (user_id INTEGER, FOREIGN KEY (user_id)
REFERENCES users(id));` — in which the constraint line follows the column
declaration — parses to exactly one relationship edge
`t.user_id → users.id`, and the returned `user_id` column is flagged as a
foreign key. -/
theorem parseSQLSchema_fk_amended (t : Str) (hne : t ≠ [])
    (hw : ∀ c ∈ t, isWordChar c = true) :
    parseSQLSchema (c3Input t) =
      ⟨[⟨t, [⟨"user_id".toList, "INTEGER".toList, false, true,
          some ("users".toList, "id".toList)⟩]⟩],
       [⟨t, "user_id".toList, "users".toList, "id".toList⟩]⟩ := by
  have hfc := findCreate_c3 t hw hne
  have key : parseLoopFuel (Nat.succ ((c3Input t).length)) (c3Input t) =
      ([⟨t, [⟨"user_id".toList, "INTEGER".toList, false, true,
          some ("users".toList, "id".toList)⟩]⟩],
       [⟨t, "user_id".toList, "users".toList, "id".toList⟩]) := by
    rw [show parseLoopFuel (Nat.succ ((c3Input t).length)) (c3Input t) =
      (match findCreate (c3Input t) with
        | none => ([], [])
        | some (name, block, rest) =>
          (⟨name, (processBlock name block).1⟩ ::
              (parseLoopFuel ((c3Input t).length) rest).1,
           (processBlock name block).2 ++
              (parseLoopFuel ((c3Input t).length) rest).2)) from rfl]
    rw [hfc]
    rfl
  unfold parseSQLSchema
  rw [← Nat.succ_eq_add_one, key]

/-- Witness for the amended C3 at the concrete table name `orders`. -/
theorem parseSQLSchema_fk_amended_witness :
    parseSQLSchema (c3Input "orders".toList) =
      ⟨[⟨"orders".toList, [⟨"user_id".toList, "INTEGER".toList, false, true,
          some ("users".toList, "id".toList)⟩]⟩],
       [⟨"orders".toList, "user_id".toList, "users".toList, "id".toList⟩]⟩ :=
  parseSQLSchema_fk_amended "orders".toList (by decide) (by decide)

section QueryHistory

/-!
## Query history (`src/lib/queryHistory` module in `part_005`)

Browser-local storage is modelled as the stored list itself; the generated
id and `Date.now()` timestamp of `addToHistory` are explicit parameters.
-/

/-- A stored history entry (`QueryHistoryItem`). -/
structure QueryHistoryItem where
  id : Str
  prompt : Str
  sql : Str
  dialect : Str
  timestamp : Nat
  isBookmarked : Bool
deriving DecidableEq, Repr

/-- `addToHistory`: build the new item (bookmark flag off), prepend it and
keep only the first 50 entries (`[newItem, ...history].slice(0, 50)`);
returns the new stored list and the returned item. -/
def addToHistory (history : List QueryHistoryItem)
    (prompt sql dialect : Str) (id : Str) (timestamp : Nat) :
    List QueryHistoryItem × QueryHistoryItem :=
  let newItem : QueryHistoryItem := ⟨id, prompt, sql, dialect, timestamp, false⟩
  ((newItem :: history).take 50, newItem)

/-- `clearHistory`: keep only the bookmarked items. -/
def clearHistory (history : List QueryHistoryItem) : List QueryHistoryItem :=
  history.filter (fun item => item.isBookmarked)

/-- C8: after any `addToHistory` the stored list has at most 50 entries and
the newly added item is first. -/
theorem addToHistory_capped (history : List QueryHistoryItem)
    (prompt sql dialect id : Str) (timestamp : Nat) :
    (addToHistory history prompt sql dialect id timestamp).1.length ≤ 50 ∧
    (addToHistory history prompt sql dialect id timestamp).1.head? =
      some (addToHistory history prompt sql dialect id timestamp).2 := by
  constructor
  · simp [addToHistory]
  · simp [addToHistory, List.take_succ_cons]

/-- C9: `clearHistory` keeps exactly the bookmarked items, in their
original relative order, and removes every non-bookmarked item. -/
theorem clearHistory_keeps_bookmarks (history : List QueryHistoryItem) :
    (clearHistory history).Sublist history ∧
    ∀ x : QueryHistoryItem,
      x ∈ clearHistory history ↔ (x ∈ history ∧ x.isBookmarked = true) := by
  constructor
  · exact List.filter_sublist history
  · intro x
    exact List.mem_filter

end QueryHistory

section ApiGateway

/-!
## `server/src/index.ts` — request validation gates

Each POST handler first validates its required body fields (responding 400
on a falsy field), then — for the Gemini-direct handlers — checks
`GEMINI_API_KEY` (500 when absent), before making its single outbound
provider call.  `handlerGate` models each handler up to that first outbound
call; body fields are `Option Str` (absent = `none`), and JavaScript
falsiness also treats the empty string as missing.
-/

/-- The thirteen POST endpoints. -/
inductive Endpoint where
  | generateSql
  | explainSql
  | convertSql
  | optimizeSql
  | sqlToNatural
  | mockResults
  | analyzePerformance
  | debugSql
  | generateSchema
  | exportOrm
  | imageToSchema
  | querySuggestions
  | generateMultiSql
deriving DecidableEq, Repr

/-- The request body fields read by any of the handlers. -/
structure RequestBody where
  prompt : Option Str
  sql : Option Str
  toDialect : Option Str
  fromDialect : Option Str
  error : Option Str
  schema : Option Str
  description : Option Str
  image : Option Str
  orm : Option Str
  partialQuery : Option Str
  dialect : Option Str
deriving Repr

/-- JavaScript falsiness of an optional string field (`!x`). -/
def falsy : Option Str → Bool
  | none => true
  | some s => s.isEmpty

/-- What a handler does before any outbound provider call. -/
inductive GateOutcome where
  | badRequest (msg : Str)
  | serverError (msg : Str)
  | providerCall
deriving DecidableEq, Repr

/-- JS `.` (dot without the `s` flag): any character except line
terminators. -/
def dotChar (c : Char) : Bool :=
  !(c.toNat = 10 || c.toNat = 13 || c.toNat = 0x2028 || c.toNat = 0x2029)

/-- After at least one `.` character of the mime type: match
`;base64,(.+)$` here, or consume one more `.` character. -/
def dataUrlRest : Str → Bool
  | [] => false
  | c :: t =>
    (";base64,".toList.isPrefixOf (c :: t) &&
      (let b := (c :: t).drop 8
       !b.isEmpty && b.all dotChar)) ||
    (dotChar c && dataUrlRest t)

/-- `/^data:(.+);base64,(.+)$/.test(image)`. -/
def dataUrlOk (s : Str) : Bool :=
  "data:".toList.isPrefixOf s &&
  (match s.drop 5 with
   | c :: t => dotChar c && dataUrlRest t
   | [] => false)

/-- The key-check-then-call tail shared by the Gemini-direct handlers. -/
def geminiTail (geminiKey : Bool) : GateOutcome :=
  if !geminiKey then .serverError "Gemini API key not configured".toList
  else .providerCall

/-- The validation prefix of each POST handler, in source order.  The four
handlers built on the provider abstraction (`generateContent`) perform no
key check before the call (a missing key surfaces as a thrown error inside
the call). -/
def handlerGate (e : Endpoint) (geminiKey : Bool) (b : RequestBody) : GateOutcome :=
  match e with
  | .generateSql =>
    if falsy b.prompt then .badRequest "Prompt is required".toList else .providerCall
  | .explainSql =>
    if falsy b.sql then .badRequest "SQL query is required".toList else .providerCall
  | .convertSql =>
    if falsy b.sql || falsy b.toDialect then
      .badRequest "SQL and target dialect are required".toList
    else .providerCall
  | .optimizeSql =>
    if falsy b.sql then .badRequest "SQL query is required".toList else .providerCall
  | .sqlToNatural =>
    if falsy b.sql then .badRequest "SQL query is required".toList
    else geminiTail geminiKey
  | .mockResults =>
    if falsy b.sql then .badRequest "SQL query is required".toList
    else geminiTail geminiKey
  | .analyzePerformance =>
    if falsy b.sql then .badRequest "SQL query is required".toList
    else geminiTail geminiKey
  | .debugSql =>
    if falsy b.sql || falsy b.error then
      .badRequest "SQL query and error message are required".toList
    else geminiTail geminiKey
  | .generateSchema =>
    if falsy b.description then .badRequest "Description is required".toList
    else geminiTail geminiKey
  | .exportOrm =>
    if falsy b.sql || falsy b.orm then
      .badRequest "SQL and ORM type are required".toList
    else geminiTail geminiKey
  | .imageToSchema =>
    if falsy b.image then .badRequest "Image data is required".toList
    else if !geminiKey then .serverError "Gemini API key not configured".toList
    else if !dataUrlOk (b.image.getD []) then
      .badRequest "Invalid image format".toList
    else .providerCall
  | .querySuggestions =>
    if falsy b.partialQuery then .badRequest "Partial query is required".toList
    else geminiTail geminiKey
  | .generateMultiSql =>
    if falsy b.prompt then .badRequest "Prompt is required".toList
    else geminiTail geminiKey

/-- "A required body field is missing" for each endpoint. -/
def requiredMissing (e : Endpoint) (b : RequestBody) : Bool :=
  match e with
  | .generateSql => b.prompt.isNone
  | .explainSql => b.sql.isNone
  | .convertSql => b.sql.isNone || b.toDialect.isNone
  | .optimizeSql => b.sql.isNone
  | .sqlToNatural => b.sql.isNone
  | .mockResults => b.sql.isNone
  | .analyzePerformance => b.sql.isNone
  | .debugSql => b.sql.isNone || b.error.isNone
  | .generateSchema => b.description.isNone
  | .exportOrm => b.sql.isNone || b.orm.isNone
  | .imageToSchema => b.image.isNone
  | .querySuggestions => b.partialQuery.isNone
  | .generateMultiSql => b.prompt.isNone

/-- An absent field is falsy. -/
theorem falsy_of_isNone {o : Option Str} (h : o.isNone = true) : falsy o = true := by
  cases o with
  | none => rfl
  | some s => cases h

/-- C7: on every endpoint, a missing required body field yields a 400
response with a nonempty error message and no outbound provider call. -/
theorem handlerGate_missing_field (e : Endpoint) (geminiKey : Bool)
    (b : RequestBody) (h : requiredMissing e b = true) :
    (∃ msg, handlerGate e geminiKey b = .badRequest msg ∧ msg ≠ []) ∧
    handlerGate e geminiKey b ≠ .providerCall := by
  have key : ∃ msg, handlerGate e geminiKey b = .badRequest msg ∧ msg ≠ [] := by
    cases e <;>
      simp only [requiredMissing, Bool.or_eq_true] at h <;>
      simp only [handlerGate] <;>
      first
      | (rw [if_pos (falsy_of_isNone h)]; exact ⟨_, rfl, by decide⟩)
      | (rcases h with h | h <;>
          [rw [if_pos (by simp [falsy_of_isNone h])];
           rw [if_pos (by simp [falsy_of_isNone h])]] <;>
          exact ⟨_, rfl, by decide⟩)
  obtain ⟨msg, hm, hne⟩ := key
  refine ⟨⟨msg, hm, hne⟩, ?_⟩
  rw [hm]
  intro hcontra
  cases hcontra

end ApiGateway

section ApiGatewayWitness

/-- A request body with every field absent. -/
def emptyBody : RequestBody :=
  ⟨none, none, none, none, none, none, none, none, none, none, none⟩

/-- Witness for C7: `generate-sql` with no `prompt` responds 400 without an
outbound call. -/
theorem handlerGate_missing_field_witness :
    (∃ msg, handlerGate .generateSql true emptyBody = .badRequest msg ∧ msg ≠ []) ∧
    handlerGate .generateSql true emptyBody ≠ .providerCall :=
  handlerGate_missing_field .generateSql true emptyBody (by decide)

end ApiGatewayWitness

section JsonFallback

/-!
## `server/src/index.ts` — explain/optimize response post-processing

After a successful provider call, the `explain-sql` and `optimize-sql`
handlers strip Markdown fences, extract the outermost `{...}` region,
repair trailing commas, and attempt `JSON.parse`; every branch answers
HTTP 200.  `JSON.parse` is an explicit parameter (`parse`), so the
theorems quantify over every possible parse outcome.
-/

/-- One global pass of `replace(/pat\s*/g, '')` for a literal pattern
(case-insensitive): `skip` pattern characters remain to be dropped, and
`inWs` records that the trailing `\s*` of the current match is being
consumed. -/
def gsubPatWsAux (pat : Str) : Nat → Bool → Str → Str
  | Nat.succ k, w, _ :: t => gsubPatWsAux pat k w t
  | 0, true, c :: t =>
    if jsWs c then gsubPatWsAux pat 0 true t
    else if (stripCI pat (c :: t)).isSome then gsubPatWsAux pat (pat.length - 1) true t
    else c :: gsubPatWsAux pat 0 false t
  | 0, false, c :: t =>
    if (stripCI pat (c :: t)).isSome then gsubPatWsAux pat (pat.length - 1) true t
    else c :: gsubPatWsAux pat 0 false t
  | _, _, [] => []

/-- `resultText.replace(/```json\s*/gi, '').replace(/```\s*/g, '').trim()`. -/
def cleanFences (resultText : Str) : Str :=
  jsTrim (gsubPatWsAux "```".toList 0 false
    (gsubPatWsAux "```json".toList 0 false resultText))

/-- `cleanedText.match(/\{[\s\S]*\}/)`: from the first `{` to the last `}`
(greedy), or `null`. -/
def braceMatch (s : Str) : Option Str :=
  match s.dropWhile (fun c => !(c = obChar)) with
  | b :: rest =>
    if rest.any (fun c => c = cbChar) then
      some (b :: (rest.reverse.dropWhile (fun c => !(c = cbChar))).reverse)
    else none
  | [] => none

/-- One global pass of `replace(/,\s*X/g, 'X')` for a closing character
`X`; `pending` holds (reversed) a matched `,` plus following whitespace. -/
def repairAux (close : Char) : Str → Str → Str
  | pending, [] => pending.reverse
  | pending, c :: t =>
    match pending with
    | [] =>
      if c = ',' then repairAux close [c] t
      else c :: repairAux close [] t
    | _ :: _ =>
      if c = close then close :: repairAux close [] t
      else if jsWs c then repairAux close (c :: pending) t
      else if c = ',' then pending.reverse ++ repairAux close [c] t
      else pending.reverse ++ (c :: repairAux close [] t)

/-- `jsonStr.replace(/,\s*}/g, '}').replace(/,\s*]/g, ']')`. -/
def repairJson (s : Str) : Str :=
  repairAux ']' [] (repairAux cbChar [] s)

/-- An HTTP response with a typed body. -/
structure HttpResponse (β : Type) where
  status : Nat
  body : β
deriving Repr

/-- The object shape sent by the explain fallbacks (`sections` and
`result` are always empty there). -/
structure ExplainShape where
  summary : Str
  sections : List Str
  result : Str
  tips : List Str
deriving DecidableEq, Repr

/-- Body of the explain response: the parsed object or a fallback shape. -/
inductive ExplainBody (α : Type) where
  | parsed (v : α)
  | fallback (f : ExplainShape)

/-- Post-processing of the `explain-sql` provider reply, parameterized by
the `JSON.parse` oracle. -/
def explainPost {α : Type} (parse : Str → Option α) (resultText : Str) :
    HttpResponse (ExplainBody α) :=
  match braceMatch (cleanFences resultText) with
  | some m =>
    match parse (repairJson m) with
    | some v => ⟨200, .parsed v⟩
    | none =>
      ⟨200, .fallback ⟨resultText.take 500, [], [],
        ["Could not parse explanation details".toList]⟩⟩
  | none => ⟨200, .fallback ⟨resultText.take 500, [], [], []⟩⟩

/-- Split at the first occurrence of a (nonempty) literal pattern:
`(before, after)`. -/
def splitAtSub (pat : Str) : Str → Option (Str × Str)
  | [] => none
  | c :: t =>
    if pat.isPrefixOf (c :: t) then some ([], (c :: t).drop pat.length)
    else
      match splitAtSub pat t with
      | some (b, r) => some (c :: b, r)
      | none => none

/-- Matcher for ``/```sql\s*([\s\S]*?)```/i`` at the front: returns the
lazy capture and the full matched text. -/
def sqlFenceAt (s : Str) : Option (Str × Str) :=
  match stripCI "```sql".toList s with
  | some r =>
    match splitAtSub "```".toList (r.dropWhile jsWs) with
    | some (cap, rest) => some (cap, s.take (s.length - rest.length))
    | none => none
  | none => none

/-- ``resultText.match(/```sql\s*([\s\S]*?)```/i)``. -/
def sqlFenceMatch (s : Str) : Option (Str × Str) := findMatch sqlFenceAt s

/-- Matcher for `/SELECT[\s\S]*?(?:;|$)/i` at the front: the full match
runs to the first `;` (inclusive) or the end of the string. -/
def selectMatchAt (s : Str) : Option Str :=
  match stripCI "select".toList s with
  | some r =>
    match splitAtSub [';'] r with
    | some (_, rest) => some (s.take (s.length - rest.length))
    | none => some s
  | none => none

/-- `resultText.match(/SELECT[\s\S]*?(?:;|$)/i)`. -/
def selectMatch (s : Str) : Option Str := findMatch selectMatchAt s

/-- `sqlMatch ? sqlMatch[1] || sqlMatch[0] : ''` over
``match(/```sql.../) || match(/SELECT.../)``. -/
def optimizeFallbackQuery (resultText : Str) : Str :=
  match sqlFenceMatch resultText with
  | some (cap, full) => if cap.isEmpty then full else cap
  | none =>
    match selectMatch resultText with
    | some full => full
    | none => []

/-- The object shape sent by the optimize fallbacks (`improvements` and
`indexes` are always empty there). -/
structure OptimizeShape where
  optimizedQuery : Str
  improvements : List Str
  indexes : List Str
  tips : List Str
  summary : Str
deriving DecidableEq, Repr

/-- Body of the optimize response. -/
inductive OptimizeBody (α : Type) where
  | parsed (v : α)
  | fallback (f : OptimizeShape)

/-- Post-processing of the `optimize-sql` provider reply. -/
def optimizePost {α : Type} (parse : Str → Option α) (resultText : Str) :
    HttpResponse (OptimizeBody α) :=
  match braceMatch (cleanFences resultText) with
  | some m =>
    match parse (repairJson m) with
    | some v => ⟨200, .parsed v⟩
    | none =>
      ⟨200, .fallback ⟨optimizeFallbackQuery resultText, [], [],
        ["Could not parse optimization details".toList],
        "Optimization analysis completed with parsing issues".toList⟩⟩
  | none =>
    ⟨200, .fallback ⟨optimizeFallbackQuery resultText, [], [],
      [resultText.take 200], []⟩⟩

/-- C6: whenever the provider reply cannot be parsed as JSON (the parse
oracle never succeeds), both endpoints still answer HTTP 200 with a
fallback object; the explain fallback carries the raw reply text. -/
theorem explain_optimize_fallback {α : Type} (parse : Str → Option α)
    (resultText : Str) (h : ∀ u, parse u = none) :
    (explainPost parse resultText).status = 200 ∧
    (∃ f, (explainPost parse resultText).body = .fallback f ∧
      f.summary = resultText.take 500) ∧
    (optimizePost parse resultText).status = 200 ∧
    (∃ g, (optimizePost parse resultText).body = .fallback g) := by
  unfold explainPost optimizePost
  simp only [h]
  cases braceMatch (cleanFences resultText) <;>
    exact ⟨rfl, ⟨_, rfl, rfl⟩, rfl, ⟨_, rfl⟩⟩

/-- Witness for C6 with a parse oracle that always fails and a concrete
reply. -/
theorem explain_optimize_fallback_witness :
    (explainPost (fun _ => (none : Option Unit)) "not json".toList).status = 200 ∧
    (∃ f, (explainPost (fun _ => (none : Option Unit)) "not json".toList).body =
        .fallback f ∧ f.summary = "not json".toList.take 500) ∧
    (optimizePost (fun _ => (none : Option Unit)) "not json".toList).status = 200 ∧
    (∃ g, (optimizePost (fun _ => (none : Option Unit)) "not json".toList).body =
        .fallback g) :=
  explain_optimize_fallback (fun _ => none) "not json".toList (fun _ => rfl)

end JsonFallback

section SqlFormatter

/-!
## `formatSQL` (`src/lib/queryHistory` module in `part_005`)

The formatter trims, collapses whitespace, inserts a newline before (and
capitalizes) each of a fixed list of major keywords via
`replace(/\s+KW\s+/gi, '\nKW ')`, capitalizes remaining `\bKW\b`
occurrences, breaks after commas via `replace(/,\s*/g, ',\n  ')`, drops one
leading newline, and finally trims each line, indenting continuation lines
that do not start with a keyword.
-/

/-- The `majorKeywords` list, in source order. -/
def majorKeywords : List Str :=
  ["SELECT".toList, "FROM".toList, "WHERE".toList, "JOIN".toList,
   "LEFT JOIN".toList, "RIGHT JOIN".toList, "INNER JOIN".toList,
   "OUTER JOIN".toList, "FULL JOIN".toList, "CROSS JOIN".toList,
   "ON".toList, "AND".toList, "OR".toList, "ORDER BY".toList,
   "GROUP BY".toList, "HAVING".toList, "LIMIT".toList, "OFFSET".toList,
   "UNION".toList, "EXCEPT".toList, "INTERSECT".toList,
   "INSERT INTO".toList, "VALUES".toList, "UPDATE".toList, "SET".toList,
   "DELETE FROM".toList, "CREATE TABLE".toList, "ALTER TABLE".toList,
   "DROP TABLE".toList, "WITH".toList, "AS".toList, "CASE".toList,
   "WHEN".toList, "THEN".toList, "ELSE".toList, "END".toList]

/-- `replace(/\s+/g, ' ')`: collapse whitespace runs to single spaces
(`inRun` records that the current run already emitted its space). -/
def collapseWsAux : Bool → Str → Str
  | _, [] => []
  | inRun, c :: t =>
    if jsWs c then
      if inRun then collapseWsAux true t else ' ' :: collapseWsAux true t
    else c :: collapseWsAux false t

/-- `replace(/\s+/g, ' ')`. -/
def collapseWs (s : Str) : Str := collapseWsAux false s

/-- Attempt `\s+KW\s+` at the front of `s` (whose head is whitespace);
returns the total matched length. -/
def kwNlTry (kw : Str) (s : Str) : Option Nat :=
  let run1 := s.takeWhile jsWs
  match stripCI kw (s.dropWhile jsWs) with
  | some r2 =>
    let run2 := r2.takeWhile jsWs
    if run2.isEmpty then none
    else some (run1.length + kw.length + run2.length)
  | none => none

/-- One global pass of `replace(/\s+KW\s+/gi, '\nKW ')`; `skip` characters
of the current match remain to be consumed. -/
def kwNlAux (kw : Str) : Nat → Str → Str
  | Nat.succ k, _ :: t => kwNlAux kw k t
  | 0, c :: t =>
    if jsWs c then
      match kwNlTry kw (c :: t) with
      | some n => '\n' :: (kw ++ (' ' :: kwNlAux kw (n - 1) t))
      | none => c :: kwNlAux kw 0 t
    else c :: kwNlAux kw 0 t
  | _, [] => []

/-- `replace(/\s+KW\s+/gi, '\nKW ')`. -/
def kwNl (kw : Str) (s : Str) : Str := kwNlAux kw 0 s

/-- The newline-insertion pass over all keywords, in source order. -/
def kwNlAll (s : Str) : Str := majorKeywords.foldl (fun acc kw => kwNl kw acc) s

/-- `\bKW\b` at the front (the caller has established the left boundary):
`KW` is nonempty, matches case-insensitively, and is followed by a
non-word character or the end. -/
def capMatchAt (kw : Str) (s : Str) : Bool :=
  !kw.isEmpty &&
  (match stripCI kw s with
   | some r => !headSat isWordChar r
   | none => false)

/-- One global pass of `replace(/\bKW\b/gi, KW)`; `skip` characters of the
current match remain to be consumed, `prevW` is the word-character class of
the previously consumed character (`false` at the start). -/
def capKwAux (kw : Str) : Nat → Bool → Str → Str
  | Nat.succ k, _, c :: t => capKwAux kw k (isWordChar c) t
  | 0, prevW, c :: t =>
    if !prevW && capMatchAt kw (c :: t) then
      kw ++ capKwAux kw (kw.length - 1) (isWordChar c) t
    else c :: capKwAux kw 0 (isWordChar c) t
  | _, _, [] => []

/-- `replace(/\bKW\b/gi, KW)` (each keyword starts and ends with a word
character, so `\b` is a word/non-word transition on both sides). -/
def capKw (kw : Str) (s : Str) : Str := capKwAux kw 0 false s

/-- The capitalization pass over all keywords, in source order. -/
def capAll (s : Str) : Str := majorKeywords.foldl (fun acc kw => capKw kw acc) s

/-- `replace(/,\s*/g, ',\n  ')`; `skipWs` records that the trailing `\s*`
of the current match is being consumed. -/
def commaNlAux : Bool → Str → Str
  | true, c :: t =>
    if jsWs c then commaNlAux true t
    else if c = ',' then ',' :: '\n' :: ' ' :: ' ' :: commaNlAux true t
    else c :: commaNlAux false t
  | false, c :: t =>
    if c = ',' then ',' :: '\n' :: ' ' :: ' ' :: commaNlAux true t
    else c :: commaNlAux false t
  | _, [] => []

/-- `replace(/,\s*/g, ',\n  ')`. -/
def commaNl (s : Str) : Str := commaNlAux false s

/-- `replace(/^\n/, '')`. -/
def dropLeadNl : Str → Str
  | '\n' :: t => t
  | s => s

/-- `trimmed.toUpperCase().startsWith(kw)` for some major keyword. -/
def startsWithKeyword (trimmed : Str) : Bool :=
  majorKeywords.any (fun kw => kw.isPrefixOf (trimmed.map Char.toUpper))

/-- The per-line pass for lines after the first: trim, and indent lines
that do not start with a keyword. -/
def indentRest : List Str → List Str
  | [] => []
  | l :: ls =>
    (if startsWithKeyword (jsTrim l) then jsTrim l
     else ' ' :: ' ' :: jsTrim l) :: indentRest ls

/-- The final phase of `formatSQL`: comma line breaks, leading-newline
strip, and the split/trim/indent/join pass over lines. -/
def postFormat (x : Str) : Str :=
  match (dropLeadNl (commaNl x)).splitOn '\n' with
  | [] => []
  | first :: rest => List.intercalate ['\n'] (jsTrim first :: indentRest rest)

/-- `formatSQL` from the query-history module. -/
def formatSQL (sql : Str) : Str :=
  postFormat (capAll (kwNlAll (collapseWs (jsTrim sql))))

end SqlFormatter

section C1Counterexample

set_option maxRecDepth 4000 in
/-- C1 counterexample: `formatSQL` is not idempotent.  On `a,or and b` the
first pass yields `a,\nOR\nAND b` (the comma directly abutting `or` blocks
the `OR` newline rule), while the second pass, now seeing a space before
`OR`, lets the `OR` rule consume the newline inserted by the `AND` rule,
yielding `a,\nOR AND b`. -/
theorem formatSQL_not_idempotent :
    formatSQL (formatSQL "a,or and b".toList) ≠ formatSQL "a,or and b".toList := by
  decide

end C1Counterexample

section C1CharLemmas

/-- Characters are determined by their code points. -/
theorem charEqOfToNat {a b : Char} (h : a.toNat = b.toNat) : a = b := by
  apply Char.ext
  exact UInt32.toNat.inj h

/-- Code point of `Char.toLower`. -/
theorem toLower_toNat (c : Char) :
    (Char.toLower c).toNat =
      if 65 ≤ c.toNat ∧ c.toNat ≤ 90 then c.toNat + 32 else c.toNat := by
  unfold Char.toLower
  split
  · next h =>
    rw [if_pos ⟨h.1, h.2⟩]
    have h1 : 65 ≤ c.toNat := h.1
    have h2 : c.toNat ≤ 90 := h.2
    set n := c.toNat with hn
    interval_cases n <;> rfl
  · next h =>
    rw [if_neg]
    intro ⟨h1, h2⟩
    exact h ⟨h1, h2⟩

/-- Case-insensitive equality in terms of code points: equal, or an
upper/lower pair of the same letter. -/
theorem ciEq_elim {a b : Char} (h : ciEq a b = true) :
    a = b ∨
    (65 ≤ a.toNat ∧ a.toNat ≤ 90 ∧ b.toNat = a.toNat + 32) ∨
    (65 ≤ b.toNat ∧ b.toNat ≤ 90 ∧ a.toNat = b.toNat + 32) := by
  have h' : a.toLower = b.toLower := by
    simpa [ciEq] using h
  have hn : (Char.toLower a).toNat = (Char.toLower b).toNat := by rw [h']
  rw [toLower_toNat, toLower_toNat] at hn
  by_cases ha : 65 ≤ a.toNat ∧ a.toNat ≤ 90 <;>
    by_cases hb : 65 ≤ b.toNat ∧ b.toNat ≤ 90
  · rw [if_pos ha, if_pos hb] at hn
    exact Or.inl (charEqOfToNat (by omega))
  · rw [if_pos ha, if_neg hb] at hn
    exact Or.inr (Or.inl ⟨ha.1, ha.2, by omega⟩)
  · rw [if_neg ha, if_pos hb] at hn
    exact Or.inr (Or.inr ⟨hb.1, hb.2, by omega⟩)
  · rw [if_neg ha, if_neg hb] at hn
    exact Or.inl (charEqOfToNat hn)

theorem ciEq_refl (a : Char) : ciEq a a = true := by simp [ciEq]

theorem ciEq_symm {a b : Char} (h : ciEq a b = true) : ciEq b a = true := by
  simp [ciEq] at h ⊢
  exact h.symm

theorem ciEq_trans {a b c : Char} (h1 : ciEq a b = true) (h2 : ciEq b c = true) :
    ciEq a c = true := by
  simp [ciEq] at h1 h2 ⊢
  exact h1.trans h2

theorem jsWs_false_of_code (a : Char) (h1 : 65 ≤ a.toNat) (h2 : a.toNat ≤ 122) :
    jsWs a = false := by
  apply Bool.eq_false_iff.mpr
  intro hw
  simp only [jsWs, Bool.or_eq_true, Bool.and_eq_true, decide_eq_true_eq] at hw
  omega

/-- `jsWs` is invariant under case-insensitive equality. -/
theorem ciEq_jsWs {a b : Char} (h : ciEq a b = true) : jsWs a = jsWs b := by
  rcases ciEq_elim h with rfl | ⟨h1, h2, h3⟩ | ⟨h1, h2, h3⟩
  · rfl
  · rw [jsWs_false_of_code a h1 (by omega), jsWs_false_of_code b (by omega) (by omega)]
  · rw [jsWs_false_of_code a (by omega) (by omega), jsWs_false_of_code b h1 (by omega)]

theorem isWordChar_true_of_letter (a : Char) (h1 : 65 ≤ a.toNat) (h2 : a.toNat ≤ 90 ∨ (97 ≤ a.toNat ∧ a.toNat ≤ 122)) :
    isWordChar a = true := by
  simp only [isWordChar, Bool.or_eq_true, Bool.and_eq_true, decide_eq_true_eq]
  omega

/-- `isWordChar` is invariant under case-insensitive equality. -/
theorem ciEq_isWordChar {a b : Char} (h : ciEq a b = true) :
    isWordChar a = isWordChar b := by
  rcases ciEq_elim h with rfl | ⟨h1, h2, h3⟩ | ⟨h1, h2, h3⟩
  · rfl
  · rw [isWordChar_true_of_letter a h1 (Or.inl h2),
      isWordChar_true_of_letter b (by omega) (Or.inr (by omega))]
  · rw [isWordChar_true_of_letter a (by omega) (Or.inr (by omega)),
      isWordChar_true_of_letter b h1 (Or.inl h2)]

/-- A whitespace character is case-insensitively equal only to itself. -/
theorem ciEq_ws_eq {a b : Char} (h : ciEq a b = true) (hw : jsWs a = true) :
    a = b := by
  rcases ciEq_elim h with rfl | ⟨h1, h2, h3⟩ | ⟨h1, h2, h3⟩
  · rfl
  · exfalso
    simp only [jsWs, Bool.or_eq_true, Bool.and_eq_true, decide_eq_true_eq] at hw
    omega
  · exfalso
    simp only [jsWs, Bool.or_eq_true, Bool.and_eq_true, decide_eq_true_eq] at hw
    omega

/-- The comma is case-insensitively equal only to itself. -/
theorem ciEq_comma {a b : Char} (h : ciEq a b = true) : a = ',' ↔ b = ',' := by
  rcases ciEq_elim h with rfl | ⟨h1, h2, h3⟩ | ⟨h1, h2, h3⟩
  · exact Iff.rfl
  · constructor <;> intro e <;> subst e
    · exfalso
      revert h1
      decide
    · exfalso
      have : (',' : Char).toNat = 44 := by decide
      omega
  · constructor <;> intro e <;> subst e
    · exfalso
      have : (',' : Char).toNat = 44 := by decide
      omega
    · exfalso
      revert h1
      decide

end C1CharLemmas

section C1Defs

/-!
## Infrastructure for the amended C1 idempotence theorem

`commaCond` is the side condition of the amended claim: every comma is
immediately followed by a whitespace character or ends the string (this is
exactly the situation in which the `,\s*` rule cannot eat the text that the
keyword rules need as left context).

The remaining definitions are proof infrastructure: a whitespace-run
tokenizer, a normal-form predicate for strings produced by the whitespace
collapse (`nfOk`), and pointwise relations between strings used to track
the keyword passes.
-/

/-- Every `,` is immediately followed by a whitespace character or is the
final character. -/
def commaCond : Str → Bool
  | [] => true
  | [_] => true
  | c :: d :: t => (if c = ',' then jsWs d else true) && commaCond (d :: t)

/-- Replace whitespace by a plain space, pointwise. -/
def flatC (c : Char) : Char := if jsWs c then ' ' else c

/-- Replace every whitespace character by a plain space. -/
def flat (s : Str) : Str := s.map flatC

/-- Tokenizer: maximal whitespace-free runs; `cur` is the reversed current
token. -/
def tokensAux : Str → Str → List Str
  | cur, [] => if cur.isEmpty then [] else [cur.reverse]
  | cur, c :: t =>
    if jsWs c then
      if cur.isEmpty then tokensAux [] t else cur.reverse :: tokensAux [] t
    else tokensAux (c :: cur) t

/-- The whitespace-separated tokens of a string. -/
def tokensOf (s : Str) : List Str := tokensAux [] s

/-- Join tokens with single spaces. -/
def joinSp : List Str → Str
  | [] => []
  | [t] => t
  | t :: t2 :: ts => t ++ ' ' :: joinSp (t2 :: ts)

/-- Whitespace characters allowed in formatter-internal strings. -/
def nfChar (c : Char) : Bool := c = ' ' || c = '\n'

/-- Scan for `nfOk`: no two adjacent whitespace characters, every
whitespace character is a space or newline, and the string does not end in
whitespace; `prevWs` records whether the previous character was
whitespace. -/
def nfAux : Bool → Str → Bool
  | prevWs, [] => !prevWs
  | prevWs, c :: t =>
    if jsWs c then !prevWs && nfChar c && nfAux true t
    else nfAux false t

/-- Normal form: no leading or trailing whitespace, no two adjacent
whitespace characters, and every whitespace character is a space or
newline. -/
def nfOk : Str → Bool
  | [] => true
  | c :: t => nfAux true (c :: t)

/-- No trailing whitespace. -/
def noTrailWs : Str → Bool
  | [] => true
  | [c] => !jsWs c
  | _ :: c :: t => noTrailWs (c :: t)

/-- The word-character class of the last character of `a` (`pw` if `a` is
empty). -/
def lastW (pw : Bool) : Str → Bool
  | [] => pw
  | c :: t => lastW (isWordChar c) t

/-- Pointwise case-insensitive equality of strings. -/
def CiRel (u v : Str) : Prop := List.Forall₂ (fun a b => ciEq a b = true) u v

/-- Pointwise relation of a keyword-pass output character `a` to the input
character `b`: same whitespace class, whitespace output characters are
spaces or newlines, and non-whitespace characters are case-insensitively
equal. -/
def ClassRelP (a b : Char) : Prop :=
  jsWs a = jsWs b ∧ (jsWs b = true → a = ' ' ∨ a = '\n' ∨ a = b) ∧
  (jsWs b = false → ciEq a b = true)

/-- Pointwise `ClassRelP` between a pass output and its input. -/
def ClassRel (z x : Str) : Prop := List.Forall₂ ClassRelP z x

/-- Relation between the zipped output pair and the zipped input pair of a
keyword pass run on two case-insensitively equal strings: each position is
either untouched on both sides or rewritten to a common character. -/
def StepRel (p q : List (Char × Char)) : Prop :=
  List.Forall₂ (fun a b => a = b ∨ a.1 = a.2) p q

end C1Defs

section C1RelLemmas

theorem ciRel_refl (s : Str) : CiRel s s := by
  induction s with
  | nil => exact List.Forall₂.nil
  | cons c t ih => exact List.Forall₂.cons (ciEq_refl c) ih

theorem ciRel_symm {u v : Str} (h : CiRel u v) : CiRel v u := by
  induction h with
  | nil => exact List.Forall₂.nil
  | cons hab _ ih => exact List.Forall₂.cons (ciEq_symm hab) ih

theorem classRelP_refl (c : Char) : ClassRelP c c :=
  ⟨rfl, fun _ => Or.inr (Or.inr rfl), fun _ => ciEq_refl c⟩

theorem classRel_refl (s : Str) : ClassRel s s := by
  induction s with
  | nil => exact List.Forall₂.nil
  | cons c t ih => exact List.Forall₂.cons (classRelP_refl c) ih

theorem classRelP_trans {a b c : Char} (h1 : ClassRelP a b) (h2 : ClassRelP b c) :
    ClassRelP a c := by
  obtain ⟨w1, f1, e1⟩ := h1
  obtain ⟨w2, f2, e2⟩ := h2
  refine ⟨w1.trans w2, ?_, ?_⟩
  · intro hc
    have hb : jsWs b = true := by rw [w2]; exact hc
    rcases f1 hb with h | h | h
    · exact Or.inl h
    · exact Or.inr (Or.inl h)
    · subst h
      rcases f2 hc with h | h | h
      · exact Or.inl h
      · exact Or.inr (Or.inl h)
      · exact Or.inr (Or.inr h)
  · intro hc
    have hb : jsWs b = false := by rw [w2]; exact hc
    exact ciEq_trans (e1 hb) (e2 hc)

theorem classRel_trans {x y z : Str} (h1 : ClassRel x y) (h2 : ClassRel y z) :
    ClassRel x z := by
  induction h1 generalizing z with
  | nil =>
    cases h2
    exact List.Forall₂.nil
  | cons hab h1' ih =>
    cases h2 with
    | cons hbc h2' => exact List.Forall₂.cons (classRelP_trans hab hbc) (ih h2')

theorem stepRel_refl (p : List (Char × Char)) : StepRel p p := by
  induction p with
  | nil => exact List.Forall₂.nil
  | cons c t ih => exact List.Forall₂.cons (Or.inl rfl) ih

theorem stepRel_trans {p q r : List (Char × Char)} (h1 : StepRel p q)
    (h2 : StepRel q r) : StepRel p r := by
  induction h1 generalizing r with
  | nil =>
    cases h2
    exact List.Forall₂.nil
  | cons hab h1' ih =>
    cases h2 with
    | cons hbc h2' =>
      refine List.Forall₂.cons ?_ (ih h2')
      rcases hab with hab | hab
      · rw [hab]
        exact hbc
      · exact Or.inr hab

theorem nfAux_ws {p : Bool} {c : Char} {t : Str} (h : nfAux p (c :: t) = true)
    (hw : jsWs c = true) :
    p = false ∧ nfChar c = true ∧ nfAux true t = true := by
  simp only [nfAux] at h
  rw [if_pos hw] at h
  simp only [Bool.and_eq_true, Bool.not_eq_true'] at h
  exact ⟨h.1.1, h.1.2, h.2⟩

theorem nfAux_nonws {p : Bool} {c : Char} {t : Str} (h : nfAux p (c :: t) = true)
    (hw : jsWs c = false) : nfAux false t = true := by
  simp only [nfAux] at h
  rw [if_neg (ne_true_of_eq_false hw)] at h
  exact h

theorem nfAux_false_of_true {s : Str} (h : nfAux true s = true) :
    nfAux false s = true := by
  cases s with
  | nil => rfl
  | cons c t =>
    by_cases hw : jsWs c = true
    · exact absurd (nfAux_ws h hw).1 (by decide)
    · rw [Bool.not_eq_true] at hw
      have h' := nfAux_nonws h hw
      simp only [nfAux]
      rw [if_neg (ne_true_of_eq_false hw)]
      exact h'

theorem nfAux_true_cons {c : Char} {t : Str} (h : nfAux true (c :: t) = true) :
    jsWs c = false := by
  by_cases hw : jsWs c = true
  · exact absurd (nfAux_ws h hw).1 (by decide)
  · exact Bool.not_eq_true _ ▸ hw

theorem nfAux_last {s : Str} {c : Char} :
    ∀ {p : Bool}, nfAux p (s ++ [c]) = true → jsWs c = false := by
  induction s with
  | nil =>
    intro p h
    by_cases hw : jsWs c = true
    · exact absurd (nfAux_ws h hw).2.2 (by decide)
    · exact Bool.not_eq_true _ ▸ hw
  | cons d t ih =>
    intro p h
    by_cases hw : jsWs d = true
    · exact ih (nfAux_ws h hw).2.2
    · rw [Bool.not_eq_true] at hw
      exact ih (nfAux_nonws h hw)

theorem nfAux_mem_flavor {s : Str} :
    ∀ {p : Bool}, nfAux p s = true → ∀ c ∈ s, jsWs c = true → nfChar c = true := by
  induction s with
  | nil => intro p _ c hc; exact absurd hc (List.not_mem_nil c)
  | cons d t ih =>
    intro p h c hc hwc
    rcases List.mem_cons.mp hc with rfl | hc
    · exact (nfAux_ws h hwc).2.1
    · by_cases hw : jsWs d = true
      · exact ih (nfAux_ws h hw).2.2 c hc hwc
      · rw [Bool.not_eq_true] at hw
        exact ih (nfAux_nonws h hw) c hc hwc

theorem nfAux_append {a b : Str} :
    ∀ {p : Bool}, nfAux p (a ++ b) = true → ∃ q, nfAux q b = true := by
  induction a with
  | nil => intro p h; exact ⟨p, h⟩
  | cons d t ih =>
    intro p h
    by_cases hw : jsWs d = true
    · exact ih (nfAux_ws h hw).2.2
    · rw [Bool.not_eq_true] at hw
      exact ih (nfAux_nonws h hw)

theorem nfOk_of_nfAux_true {s : Str} (h : nfAux true s = true) : nfOk s = true := by
  cases s with
  | nil => rfl
  | cons c t => exact h

theorem nfAux_true_of_nfOk {s : Str} (h : nfOk s = true) (hne : s ≠ []) :
    nfAux true s = true := by
  cases s with
  | nil => exact absurd rfl hne
  | cons c t => exact h

theorem nfAux_false_of_nfOk {s : Str} (h : nfOk s = true) : nfAux false s = true := by
  cases s with
  | nil => rfl
  | cons c t => exact nfAux_false_of_true h

theorem nfAux_ciRel {u v : Str} (hr : CiRel u v) :
    ∀ {p : Bool}, nfAux p u = true → nfAux p v = true := by
  induction hr with
  | nil => intro p h; exact h
  | cons hab hr' ih =>
    intro p h
    rename_i a b u' v'
    by_cases hw : jsWs a = true
    · obtain ⟨hp, hfc, hrest⟩ := nfAux_ws h hw
      have hab' : a = b := ciEq_ws_eq hab hw
      subst hab'
      subst hp
      simp only [nfAux]
      rw [if_pos hw]
      simp only [Bool.and_eq_true, Bool.not_eq_true']
      exact ⟨⟨trivial, hfc⟩, ih hrest⟩
    · rw [Bool.not_eq_true] at hw
      have hwb : jsWs b = false := by rw [← ciEq_jsWs hab]; exact hw
      simp only [nfAux]
      rw [if_neg (ne_true_of_eq_false hwb)]
      exact ih (nfAux_nonws h hw)

theorem nfOk_ciRel {u v : Str} (hr : CiRel u v) (h : nfOk u = true) :
    nfOk v = true := by
  cases hr with
  | nil => rfl
  | cons hab hr' => exact nfOk_of_nfAux_true (nfAux_ciRel (List.Forall₂.cons hab hr') h)

theorem nfAux_classRel {z x : Str} (hr : ClassRel z x) :
    ∀ {p : Bool}, nfAux p x = true → nfAux p z = true := by
  induction hr with
  | nil => intro p h; exact h
  | cons hab hr' ih =>
    intro p h
    rename_i a b z' x'
    obtain ⟨hwcl, hfl, hci⟩ := hab
    by_cases hw : jsWs b = true
    · obtain ⟨hp, hfc, hrest⟩ := nfAux_ws h hw
      subst hp
      have hwa : jsWs a = true := by rw [hwcl]; exact hw
      have hfa : nfChar a = true := by
        rcases hfl hw with h' | h' | h'
        · rw [h']; rfl
        · rw [h']; rfl
        · rw [h']; exact hfc
      simp only [nfAux]
      rw [if_pos hwa]
      simp only [Bool.and_eq_true, Bool.not_eq_true']
      exact ⟨⟨trivial, hfa⟩, ih hrest⟩
    · rw [Bool.not_eq_true] at hw
      have hwa : jsWs a = false := by rw [hwcl]; exact hw
      simp only [nfAux]
      rw [if_neg (ne_true_of_eq_false hwa)]
      exact ih (nfAux_nonws h hw)

theorem nfOk_classRel {z x : Str} (hr : ClassRel z x) (h : nfOk x = true) :
    nfOk z = true := by
  cases hr with
  | nil => rfl
  | cons hab hr' => exact nfOk_of_nfAux_true (nfAux_classRel (List.Forall₂.cons hab hr') h)

theorem commaCond_tail {c : Char} {t : Str} (h : commaCond (c :: t) = true) :
    commaCond t = true := by
  cases t with
  | nil => rfl
  | cons d t' =>
    simp only [commaCond, Bool.and_eq_true] at h
    exact h.2

theorem commaCond_pair {c d : Char} {t : Str} (h : commaCond (c :: d :: t) = true)
    (hc : c = ',') : jsWs d = true := by
  simp only [commaCond, Bool.and_eq_true] at h
  rw [if_pos hc] at h
  exact h.1

theorem commaCond_cons {c d : Char} {t : Str} (hp : c = ',' → jsWs d = true)
    (h : commaCond (d :: t) = true) : commaCond (c :: d :: t) = true := by
  simp only [commaCond, Bool.and_eq_true]
  refine ⟨?_, h⟩
  by_cases hc : c = ','
  · rw [if_pos hc]
    exact hp hc
  · rw [if_neg hc]

theorem commaCond_suffix {b : Str} :
    ∀ {a : Str}, commaCond (a ++ b) = true → commaCond b = true := by
  intro a
  induction a with
  | nil => intro h; exact h
  | cons c t ih => intro h; exact ih (commaCond_tail h)

theorem commaCond_append_left {r : Str} :
    ∀ {m : Str}, commaCond (m ++ r) = true → commaCond m = true := by
  intro m
  induction m with
  | nil => intro _; rfl
  | cons c m' ih =>
    intro h
    cases m' with
    | nil => rfl
    | cons d t =>
      simp only [List.cons_append] at h
      exact commaCond_cons (fun hc => commaCond_pair h hc) (ih (commaCond_tail h))

end C1RelLemmas

section C1TokenLemmas

theorem tokensAux_ws_cons {c : Char} {t : Str} (hw : jsWs c = true) (cur : Str) :
    tokensAux cur (c :: t) =
      (if cur.isEmpty then [] else [cur.reverse]) ++ tokensAux [] t := by
  simp only [tokensAux]
  rw [if_pos hw]
  cases cur with
  | nil => simp
  | cons d cur' => simp [List.isEmpty]

theorem tokensAux_nonws_cons {c : Char} {t cur : Str} (hw : jsWs c = false) :
    tokensAux cur (c :: t) = tokensAux (c :: cur) t := by
  simp only [tokensAux]
  rw [if_neg (ne_true_of_eq_false hw)]

theorem tokensAux_nil (cur : Str) :
    tokensAux cur [] = if cur.isEmpty then [] else [cur.reverse] := rfl

theorem tokensAux_append_ws {g : Char} (hg : jsWs g = true) (b : Str) :
    ∀ (a cur : Str),
      tokensAux cur (a ++ g :: b) = tokensAux cur (a ++ [g]) ++ tokensAux [] b := by
  intro a
  induction a with
  | nil =>
    intro cur
    rw [List.nil_append, List.nil_append, tokensAux_ws_cons hg, tokensAux_ws_cons hg,
      tokensAux_nil, List.append_assoc]
    simp
  | cons c a' ih =>
    intro cur
    by_cases hw : jsWs c = true
    · rw [List.cons_append, tokensAux_ws_cons hw, List.cons_append,
        tokensAux_ws_cons hw, ih, List.append_assoc]
    · rw [Bool.not_eq_true] at hw
      rw [List.cons_append, tokensAux_nonws_cons hw, List.cons_append,
        tokensAux_nonws_cons hw, ih]

theorem tokensAux_append_trail_ws {g : Char} (hg : jsWs g = true) :
    ∀ (a cur : Str), tokensAux cur (a ++ [g]) = tokensAux cur a := by
  intro a
  induction a with
  | nil =>
    intro cur
    rw [List.nil_append, tokensAux_ws_cons hg, tokensAux_nil, tokensAux_nil]
    simp
  | cons c a' ih =>
    intro cur
    by_cases hw : jsWs c = true
    · rw [List.cons_append, tokensAux_ws_cons hw, tokensAux_ws_cons hw, ih]
    · rw [Bool.not_eq_true] at hw
      rw [List.cons_append, tokensAux_nonws_cons hw, tokensAux_nonws_cons hw, ih]

theorem tokensOf_split {g : Char} (hg : jsWs g = true) (a b : Str) :
    tokensOf (a ++ g :: b) = tokensOf a ++ tokensOf b := by
  unfold tokensOf
  rw [tokensAux_append_ws hg b a, tokensAux_append_trail_ws hg a]

theorem tokensOf_ws_cons {c : Char} {t : Str} (hw : jsWs c = true) :
    tokensOf (c :: t) = tokensOf t := by
  unfold tokensOf
  rw [tokensAux_ws_cons hw]
  simp

theorem tokensOf_dropWhile (s : Str) :
    tokensOf (s.dropWhile jsWs) = tokensOf s := by
  induction s with
  | nil => rfl
  | cons c t ih =>
    by_cases hw : jsWs c = true
    · rw [List.dropWhile_cons, if_pos hw, ih, tokensOf_ws_cons hw]
    · rw [List.dropWhile_cons, if_neg hw]

theorem tokensOf_all_ws {r : Str} (hr : ∀ c ∈ r, jsWs c = true) :
    tokensOf r = [] := by
  induction r with
  | nil => rfl
  | cons c t ih =>
    rw [tokensOf_ws_cons (hr c (List.mem_cons_self c t))]
    exact ih (fun d hd => hr d (List.mem_cons_of_mem c hd))

theorem tokensOf_append_ws_all {r : Str} (hr : ∀ c ∈ r, jsWs c = true) (m : Str) :
    tokensOf (m ++ r) = tokensOf m := by
  cases r with
  | nil => rw [List.append_nil]
  | cons c r' =>
    rw [tokensOf_split (hr c (List.mem_cons_self c r')) m r',
      tokensOf_all_ws (fun d hd => hr d (List.mem_cons_of_mem c hd)), List.append_nil]

/-- The trim decomposition: the leading-whitespace-stripped string is the
trimmed string followed by an all-whitespace run. -/
theorem jsTrim_decomp (s : Str) :
    s.dropWhile jsWs = jsTrim s ++ (((s.dropWhile jsWs).reverse.takeWhile jsWs).reverse)
      ∧ ∀ c ∈ ((s.dropWhile jsWs).reverse.takeWhile jsWs).reverse, jsWs c = true := by
  constructor
  · unfold jsTrim
    have h := List.takeWhile_append_dropWhile jsWs (s.dropWhile jsWs).reverse
    have h2 := congrArg List.reverse h
    rw [List.reverse_append, List.reverse_reverse] at h2
    exact h2.symm
  · intro c hc
    rw [List.mem_reverse] at hc
    exact List.mem_takeWhile_imp hc

theorem tokensOf_jsTrim (s : Str) : tokensOf (jsTrim s) = tokensOf s := by
  obtain ⟨hdec, hws⟩ := jsTrim_decomp s
  have h1 : tokensOf (s.dropWhile jsWs) = tokensOf (jsTrim s) := by
    rw [hdec]
    exact tokensOf_append_ws_all hws (jsTrim s)
  rw [← h1, tokensOf_dropWhile]

theorem commaCond_jsTrim {s : Str} (h : commaCond s = true) :
    commaCond (jsTrim s) = true := by
  obtain ⟨hdec, _⟩ := jsTrim_decomp s
  obtain ⟨a, ha⟩ := (List.dropWhile_suffix jsWs : (s.dropWhile jsWs) <:+ s)
  have h1 : commaCond (s.dropWhile jsWs) = true := by
    rw [← ha] at h
    exact commaCond_suffix h
  rw [hdec] at h1
  exact commaCond_append_left h1

theorem intercalate_cons_cons (sep x y : Str) (ls : List Str) :
    List.intercalate sep (x :: y :: ls) = x ++ sep ++ List.intercalate sep (y :: ls) := by
  simp [List.intercalate, List.intersperse]

theorem tokensOf_intercalate_nl (ls : List Str) :
    tokensOf (List.intercalate ['\n'] ls) = (ls.map tokensOf).flatten := by
  induction ls with
  | nil => rfl
  | cons x ls ih =>
    cases ls with
    | nil => simp [List.intercalate, List.intersperse]
    | cons y ls' =>
      rw [intercalate_cons_cons]
      rw [List.append_assoc, List.singleton_append, tokensOf_split (by decide) x _, ih]
      simp

theorem tokensOf_indentRest (ls : List Str) :
    (indentRest ls).map tokensOf = ls.map tokensOf := by
  induction ls with
  | nil => rfl
  | cons l ls ih =>
    have hind : indentRest (l :: ls) = (if startsWithKeyword (jsTrim l) then jsTrim l
        else ' ' :: ' ' :: jsTrim l) :: indentRest ls := rfl
    rw [hind, List.map_cons, List.map_cons, ih]
    congr 1
    by_cases hk : startsWithKeyword (jsTrim l) = true
    · rw [if_pos hk, tokensOf_jsTrim]
    · rw [if_neg hk, tokensOf_ws_cons (by decide), tokensOf_ws_cons (by decide),
        tokensOf_jsTrim]

end C1TokenLemmas

section C1JoinCollapse

theorem noTrailWs_tail {c : Char} {t : Str} (h : noTrailWs (c :: t) = true) :
    noTrailWs t = true := by
  cases t with
  | nil => rfl
  | cons d t' => exact h

theorem noTrailWs_cons_ws {c : Char} {t : Str} (h : noTrailWs (c :: t) = true)
    (hw : jsWs c = true) : t ≠ [] := by
  intro heq
  subst heq
  simp only [noTrailWs] at h
  rw [hw] at h
  exact absurd h (by decide)

theorem noTrailWs_cons_of_ne {c : Char} {X : Str} (h : X ≠ []) :
    noTrailWs (c :: X) = noTrailWs X := by
  cases X with
  | nil => exact absurd rfl h
  | cons d t => rfl

theorem noTrailWs_append_last : ∀ (a : Str) (c : Char),
    noTrailWs (a ++ [c]) = !jsWs c := by
  intro a
  induction a with
  | nil => intro c; rfl
  | cons d a' ih =>
    intro c
    rw [List.cons_append, noTrailWs_cons_of_ne (by simp), ih]

theorem joinSp_cons_ne {x : Str} {ts : List Str} (h : ts ≠ []) :
    joinSp (x :: ts) = x ++ ' ' :: joinSp ts := by
  cases ts with
  | nil => exact absurd rfl h
  | cons y ts' => rfl

theorem tokensAux_ws_cons_nil {c : Char} {t : Str} (hw : jsWs c = true) :
    tokensAux [] (c :: t) = tokensAux [] t := by
  rw [tokensAux_ws_cons hw]
  simp

theorem tokensAux_ne_nil_of_cur : ∀ (t cur : Str), cur ≠ [] → tokensAux cur t ≠ [] := by
  intro t
  induction t with
  | nil =>
    intro cur hc
    cases cur with
    | nil => exact absurd rfl hc
    | cons d cur' => simp [tokensAux, List.isEmpty]
  | cons c t' ih =>
    intro cur hc
    by_cases hw : jsWs c = true
    · rw [tokensAux_ws_cons hw]
      cases cur with
      | nil => exact absurd rfl hc
      | cons d cur' => simp [List.isEmpty]
    · rw [Bool.not_eq_true] at hw
      rw [tokensAux_nonws_cons hw]
      exact ih (c :: cur) (List.cons_ne_nil c cur)

theorem tokensOf_ne_nil : ∀ {t : Str}, t ≠ [] → noTrailWs t = true →
    tokensAux [] t ≠ [] := by
  intro t
  induction t with
  | nil => intro h _; exact absurd rfl h
  | cons c t' ih =>
    intro _ htr
    by_cases hw : jsWs c = true
    · rw [tokensAux_ws_cons_nil hw]
      exact ih (noTrailWs_cons_ws htr hw) (noTrailWs_tail htr)
    · rw [Bool.not_eq_true] at hw
      rw [tokensAux_nonws_cons hw]
      exact tokensAux_ne_nil_of_cur t' [c] (List.cons_ne_nil c [])

theorem collapse_ws_cons {c : Char} {t : Str} (hw : jsWs c = true) :
    collapseWsAux false (c :: t) = ' ' :: collapseWsAux true t := by
  simp only [collapseWsAux]
  rw [if_pos hw]
  rfl

theorem collapse_ws_skip {c : Char} {t : Str} (hw : jsWs c = true) :
    collapseWsAux true (c :: t) = collapseWsAux true t := by
  simp only [collapseWsAux]
  rw [if_pos hw]
  rfl

theorem collapse_nonws {c : Char} {t : Str} (hw : jsWs c = false) (st : Bool) :
    collapseWsAux st (c :: t) = c :: collapseWsAux false t := by
  simp only [collapseWsAux]
  rw [if_neg (ne_true_of_eq_false hw)]

/-- The collapse scanner agrees with joining the tokens by single spaces,
away from leading and trailing whitespace. -/
theorem join_collapse :
    ∀ (n : Nat) (y : Str), y.length ≤ n →
      ((∀ cur : Str, (cur = [] → headSat jsWs y = false) → noTrailWs y = true →
          joinSp (tokensAux cur y) = cur.reverse ++ collapseWsAux false y) ∧
        (noTrailWs y = true → joinSp (tokensAux [] y) = collapseWsAux true y)) := by
  intro n
  induction n with
  | zero =>
    intro y hy
    have hnil : y = [] := List.length_eq_zero.mp (Nat.le_zero.mp hy)
    subst hnil
    constructor
    · intro cur _ _
      cases cur with
      | nil => rfl
      | cons d cur' => simp [tokensAux, joinSp, List.isEmpty, collapseWsAux]
    · intro _
      rfl
  | succ n ih =>
    intro y hy
    cases y with
    | nil =>
      constructor
      · intro cur _ _
        cases cur with
        | nil => rfl
        | cons d cur' => simp [tokensAux, joinSp, List.isEmpty, collapseWsAux]
      · intro _
        rfl
    | cons c t =>
      have ht : t.length ≤ n := by
        simp only [List.length_cons] at hy
        omega
      obtain ⟨ihA, ihB⟩ := ih t ht
      constructor
      · intro cur hcur htr
        by_cases hw : jsWs c = true
        · have hcur' : cur ≠ [] := by
            intro hc
            subst hc
            have hh := hcur rfl
            rw [show headSat jsWs (c :: t) = jsWs c from rfl, hw] at hh
            exact absurd hh (by decide)
          have htne : t ≠ [] := noTrailWs_cons_ws htr hw
          have htt : noTrailWs t = true := noTrailWs_tail htr
          rw [tokensAux_ws_cons hw]
          cases cur with
          | nil => exact absurd rfl hcur'
          | cons d cur' =>
            have hie : (d :: cur').isEmpty = false := rfl
            rw [hie, if_neg (by decide), List.singleton_append,
              joinSp_cons_ne (tokensOf_ne_nil htne htt), ihB htt,
              collapse_ws_cons hw]
        · rw [Bool.not_eq_true] at hw
          rw [tokensAux_nonws_cons hw,
            ihA (c :: cur) (fun h => absurd h (List.cons_ne_nil c cur))
              (noTrailWs_tail htr),
            List.reverse_cons, List.append_assoc, collapse_nonws hw]
          rfl
      · intro htr
        by_cases hw : jsWs c = true
        · rw [tokensAux_ws_cons_nil hw,
            ihB (noTrailWs_tail htr), collapse_ws_skip hw]
        · rw [Bool.not_eq_true] at hw
          rw [tokensAux_nonws_cons hw,
            ihA [c] (fun h => absurd h (List.cons_ne_nil c [])) (noTrailWs_tail htr),
            collapse_nonws hw]
          rfl

theorem headSat_dropWhile (s : Str) :
    headSat jsWs (List.dropWhile jsWs s) = false := by
  induction s with
  | nil => rfl
  | cons c t ih =>
    by_cases hw : jsWs c = true
    · rw [List.dropWhile_cons, if_pos hw]
      exact ih
    · rw [List.dropWhile_cons, if_neg hw]
      show jsWs c = false
      exact Bool.not_eq_true _ ▸ hw

theorem dropWhile_id_of_head {z : Str} (h : headSat jsWs z = false) :
    z.dropWhile jsWs = z := by
  cases z with
  | nil => rfl
  | cons c t =>
    have hc : jsWs c = false := h
    rw [List.dropWhile_cons, if_neg (ne_true_of_eq_false hc)]

theorem headSat_jsTrim (s : Str) : headSat jsWs (jsTrim s) = false := by
  obtain ⟨hdec, _⟩ := jsTrim_decomp s
  have hd := headSat_dropWhile s
  rw [hdec] at hd
  cases hj : jsTrim s with
  | nil => rfl
  | cons c m =>
    rw [hj, List.cons_append] at hd
    rw [show headSat jsWs (c :: m) = jsWs c from rfl]
    rw [show headSat jsWs (c :: (m ++ ((s.dropWhile jsWs).reverse.takeWhile jsWs).reverse)) = jsWs c from rfl] at hd
    exact hd

theorem noTrailWs_jsTrim (s : Str) : noTrailWs (jsTrim s) = true := by
  unfold jsTrim
  cases hr : (s.dropWhile jsWs).reverse.dropWhile jsWs with
  | nil => rfl
  | cons d w =>
    have hd : jsWs d = false := by
      have := headSat_dropWhile (s.dropWhile jsWs).reverse
      rw [hr] at this
      exact this
    rw [List.reverse_cons, noTrailWs_append_last, hd]
    rfl

/-- `collapseWs (jsTrim s)` is the single-space join of the tokens of `s`. -/
theorem N_eq_joinSp (s : Str) :
    collapseWs (jsTrim s) = joinSp (tokensOf s) := by
  have h := (join_collapse (jsTrim s).length (jsTrim s) le_rfl).1 []
    (fun _ => headSat_jsTrim s) (noTrailWs_jsTrim s)
  rw [List.reverse_nil, List.nil_append] at h
  unfold collapseWs
  rw [← h]
  show joinSp (tokensOf (jsTrim s)) = joinSp (tokensOf s)
  rw [tokensOf_jsTrim]

theorem N_congr {x y : Str} (h : tokensOf x = tokensOf y) :
    collapseWs (jsTrim x) = collapseWs (jsTrim y) := by
  rw [N_eq_joinSp, N_eq_joinSp, h]

end C1JoinCollapse

section C1CollapseNF

/-- The collapse scanner emits normal-form output (mutual claim over the
two scanner states). -/
theorem nfAux_collapse :
    ∀ (n : Nat) (s : Str), s.length ≤ n →
      ((noTrailWs s = true → nfAux false (collapseWsAux false s) = true) ∧
        (s ≠ [] → noTrailWs s = true → nfAux true (collapseWsAux true s) = true)) := by
  intro n
  induction n with
  | zero =>
    intro s hs
    have hnil : s = [] := List.length_eq_zero.mp (Nat.le_zero.mp hs)
    subst hnil
    exact ⟨fun _ => rfl, fun h _ => absurd rfl h⟩
  | succ n ih =>
    intro s hs
    cases s with
    | nil => exact ⟨fun _ => rfl, fun h _ => absurd rfl h⟩
    | cons c t =>
      have ht : t.length ≤ n := by
        simp only [List.length_cons] at hs
        omega
      obtain ⟨ih1, ih2⟩ := ih t ht
      constructor
      · intro htr
        by_cases hw : jsWs c = true
        · rw [collapse_ws_cons hw]
          have htne : t ≠ [] := noTrailWs_cons_ws htr hw
          have h2 := ih2 htne (noTrailWs_tail htr)
          simp only [nfAux]
          rw [if_pos (by decide : jsWs ' ' = true)]
          simp only [Bool.and_eq_true, Bool.not_eq_true']
          exact ⟨⟨trivial, by decide⟩, h2⟩
        · rw [Bool.not_eq_true] at hw
          rw [collapse_nonws hw]
          simp only [nfAux]
          rw [if_neg (ne_true_of_eq_false hw)]
          exact ih1 (noTrailWs_tail htr)
      · intro _ htr
        by_cases hw : jsWs c = true
        · rw [collapse_ws_skip hw]
          exact ih2 (noTrailWs_cons_ws htr hw) (noTrailWs_tail htr)
        · rw [Bool.not_eq_true] at hw
          rw [collapse_nonws hw]
          simp only [nfAux]
          rw [if_neg (ne_true_of_eq_false hw)]
          exact ih1 (noTrailWs_tail htr)

/-- `collapseWs (jsTrim s)` is in normal form. -/
theorem nfOk_N (s : Str) : nfOk (collapseWs (jsTrim s)) = true := by
  have htr := noTrailWs_jsTrim s
  have hhd := headSat_jsTrim s
  cases hj : jsTrim s with
  | nil => rfl
  | cons c t =>
    rw [hj] at htr hhd
    have hw : jsWs c = false := hhd
    unfold collapseWs
    rw [collapse_nonws hw]
    apply nfOk_of_nfAux_true
    simp only [nfAux]
    rw [if_neg (ne_true_of_eq_false hw)]
    exact (nfAux_collapse t.length t le_rfl).1 (noTrailWs_tail htr)

/-- Every whitespace character the collapse scanner emits is a space. -/
theorem collapse_ws_sp : ∀ (s : Str) (st : Bool) (c : Char),
    c ∈ collapseWsAux st s → jsWs c = true → c = ' ' := by
  intro s
  induction s with
  | nil => intro st c hc; exact absurd hc (List.not_mem_nil c)
  | cons d t ih =>
    intro st c hc hw
    by_cases hd : jsWs d = true
    · cases st with
      | true =>
        rw [collapse_ws_skip hd] at hc
        exact ih true c hc hw
      | false =>
        rw [collapse_ws_cons hd] at hc
        rcases List.mem_cons.mp hc with rfl | hc
        · rfl
        · exact ih true c hc hw
    · rw [Bool.not_eq_true] at hd
      rw [collapse_nonws hd] at hc
      rcases List.mem_cons.mp hc with rfl | hc
      · rw [hw] at hd
        exact absurd hd (by decide)
      · exact ih false c hc hw

theorem commaCond_cons_ne {c : Char} {X : Str} (hc : c ≠ ',')
    (h : commaCond X = true) : commaCond (c :: X) = true := by
  cases X with
  | nil => rfl
  | cons d t => exact commaCond_cons (fun h' => absurd h' hc) h

/-- The comma condition survives whitespace collapse. -/
theorem commaCond_collapse : ∀ (s : Str), commaCond s = true →
    commaCond (collapseWsAux false s) = true ∧
      commaCond (collapseWsAux true s) = true := by
  intro s
  induction s with
  | nil => intro _; exact ⟨rfl, rfl⟩
  | cons c t ih =>
    intro h
    obtain ⟨ih1, ih2⟩ := ih (commaCond_tail h)
    by_cases hw : jsWs c = true
    · rw [collapse_ws_cons hw, collapse_ws_skip hw]
      refine ⟨commaCond_cons_ne (by decide) ih2, ih2⟩
    · rw [Bool.not_eq_true] at hw
      rw [collapse_nonws hw, collapse_nonws hw]
      by_cases hc : c = ','
      · subst hc
        cases t with
        | nil => exact ⟨rfl, rfl⟩
        | cons d t' =>
          have hd : jsWs d = true := commaCond_pair h rfl
          have hcol : collapseWsAux false (d :: t') = ' ' :: collapseWsAux true t' :=
            collapse_ws_cons hd
          rw [hcol]
          have h1 : commaCond (' ' :: collapseWsAux true t') = true := by
            rw [← hcol]
            exact ih1
          refine ⟨commaCond_cons (fun _ => by decide) h1, commaCond_cons (fun _ => by decide) h1⟩
      · exact ⟨commaCond_cons_ne hc ih1, commaCond_cons_ne hc ih1⟩

/-- The comma condition survives trim followed by whitespace collapse. -/
theorem commaCond_N {s : Str} (h : commaCond s = true) :
    commaCond (collapseWs (jsTrim s)) = true :=
  (commaCond_collapse (jsTrim s) (commaCond_jsTrim h)).1

theorem collapse_state_nonws {t : Str} (h : headSat jsWs t = false) :
    collapseWsAux true t = collapseWsAux false t := by
  cases t with
  | nil => rfl
  | cons d t' =>
    have hd : jsWs d = false := h
    rw [collapse_nonws hd, collapse_nonws hd]

/-- On a normal-form string the collapse scanner is the pointwise
whitespace flattening. -/
theorem collapse_flat_nf : ∀ {z : Str}, nfAux false z = true →
    collapseWsAux false z = flat z := by
  intro z
  induction z with
  | nil => intro _; rfl
  | cons c t ih =>
    intro h
    by_cases hw : jsWs c = true
    · obtain ⟨_, _, hrest⟩ := nfAux_ws h hw
      cases t with
      | nil => exact absurd hrest (by decide)
      | cons d t' =>
        have hd : jsWs d = false := nfAux_true_cons hrest
        rw [collapse_ws_cons hw, collapse_state_nonws (show headSat jsWs (d :: t') = false from hd)]
        show ' ' :: collapseWsAux false (d :: t') = flatC c :: flat (d :: t')
        rw [ih (nfAux_false_of_true hrest)]
        congr 1
        unfold flatC
        rw [if_pos hw]
    · rw [Bool.not_eq_true] at hw
      rw [collapse_nonws hw, ih (nfAux_nonws h hw)]
      show c :: flat t = flatC c :: flat t
      congr 1
      unfold flatC
      rw [if_neg (ne_true_of_eq_false hw)]

/-- Trim is the identity on normal-form strings. -/
theorem jsTrim_nf {z : Str} (h : nfOk z = true) : jsTrim z = z := by
  cases hz : z with
  | nil => rfl
  | cons c t =>
    rw [hz] at h
    have hhd : jsWs c = false := nfAux_true_cons h
    unfold jsTrim
    rw [dropWhile_id_of_head (show headSat jsWs (c :: t) = false from hhd)]
    cases hr : (c :: t).reverse with
    | nil => exact absurd (congrArg List.length hr) (by simp)
    | cons d w =>
      have hz2 : c :: t = w.reverse ++ [d] := by
        have := congrArg List.reverse hr
        rw [List.reverse_reverse, List.reverse_cons] at this
        exact this
      have hd : jsWs d = false := by
        rw [hz2] at h
        exact nfAux_last (nfAux_false_of_nfOk h)
      rw [List.dropWhile_cons, if_neg (ne_true_of_eq_false hd), ← hr,
        List.reverse_reverse]

/-- On a normal-form string, trim-and-collapse is pointwise whitespace
flattening. -/
theorem N_flat_nf {z : Str} (h : nfOk z = true) :
    collapseWs (jsTrim z) = flat z := by
  rw [jsTrim_nf h]
  exact collapse_flat_nf (nfAux_false_of_nfOk h)

end C1CollapseNF

section C1PostFormat

theorem commaNl_false_comma {t : Str} :
    commaNlAux false (',' :: t) = ',' :: '\n' :: ' ' :: ' ' :: commaNlAux true t := by
  simp only [commaNlAux]
  rw [if_pos trivial]

theorem commaNl_false_other {c : Char} {t : Str} (hc : c ≠ ',') :
    commaNlAux false (c :: t) = c :: commaNlAux false t := by
  simp only [commaNlAux]
  rw [if_neg hc]

theorem commaNl_true_ws {c : Char} {t : Str} (hw : jsWs c = true) :
    commaNlAux true (c :: t) = commaNlAux true t := by
  simp only [commaNlAux]
  rw [if_pos hw]

theorem commaNl_true_comma {t : Str} :
    commaNlAux true (',' :: t) = ',' :: '\n' :: ' ' :: ' ' :: commaNlAux true t := by
  simp only [commaNlAux]
  rw [if_neg (by decide), if_pos trivial]

theorem commaNl_true_other {c : Char} {t : Str} (hw : jsWs c = false) (hc : c ≠ ',') :
    commaNlAux true (c :: t) = c :: commaNlAux false t := by
  simp only [commaNlAux]
  rw [if_neg (ne_true_of_eq_false hw), if_neg hc]

/-- Under the comma condition, the `,\s*` pass preserves tokens (mutual
claim over the two scanner states). -/
theorem commaNl_tokens :
    ∀ (n : Nat) (s : Str), s.length ≤ n →
      ((∀ cur, commaCond s = true →
          tokensAux cur (commaNlAux false s) = tokensAux cur s) ∧
        (commaCond s = true →
          tokensAux [] (commaNlAux true s) = tokensAux [] s)) := by
  intro n
  induction n with
  | zero =>
    intro s hs
    have hnil : s = [] := List.length_eq_zero.mp (Nat.le_zero.mp hs)
    subst hnil
    exact ⟨fun _ _ => rfl, fun _ => rfl⟩
  | succ n ih =>
    intro s hs
    cases s with
    | nil => exact ⟨fun _ _ => rfl, fun _ => rfl⟩
    | cons c t =>
      have ht : t.length ≤ n := by
        simp only [List.length_cons] at hs
        omega
      constructor
      · intro cur h
        by_cases hc : c = ','
        · subst hc
          rw [commaNl_false_comma, tokensAux_nonws_cons (by decide),
            tokensAux_ws_cons (by decide),
            show ((',' :: cur).isEmpty = false) from rfl, if_neg (by decide),
            tokensAux_ws_cons_nil (by decide), tokensAux_ws_cons_nil (by decide),
            List.singleton_append]
          cases t with
          | nil =>
            rw [show commaNlAux true ([] : Str) = [] from rfl,
              tokensAux_nonws_cons (by decide : jsWs ',' = false)]
            rfl
          | cons d t' =>
            have hd : jsWs d = true := commaCond_pair h rfl
            rw [commaNl_true_ws hd]
            have ht' : t'.length ≤ n := by
              simp only [List.length_cons] at ht
              omega
            rw [(ih t' ht').2 (commaCond_tail (commaCond_tail h)),
              tokensAux_nonws_cons (by decide : jsWs ',' = false),
              tokensAux_ws_cons hd,
              show ((',' :: cur).isEmpty = false) from rfl, if_neg (by decide),
              List.singleton_append]
        · rw [commaNl_false_other hc]
          by_cases hw : jsWs c = true
          · rw [tokensAux_ws_cons hw, tokensAux_ws_cons hw,
              (ih t ht).1 [] (commaCond_tail h)]
          · rw [Bool.not_eq_true] at hw
            rw [tokensAux_nonws_cons hw, tokensAux_nonws_cons hw]
            exact (ih t ht).1 (c :: cur) (commaCond_tail h)
      · intro h
        by_cases hw : jsWs c = true
        · rw [commaNl_true_ws hw, tokensAux_ws_cons_nil hw]
          exact (ih t ht).2 (commaCond_tail h)
        · rw [Bool.not_eq_true] at hw
          by_cases hc : c = ','
          · subst hc
            rw [commaNl_true_comma, tokensAux_nonws_cons (by decide),
              tokensAux_ws_cons (by decide),
              show (([','] : Str).isEmpty = false) from rfl, if_neg (by decide),
              tokensAux_ws_cons_nil (by decide), tokensAux_ws_cons_nil (by decide),
              List.singleton_append]
            cases t with
            | nil =>
              rw [show commaNlAux true ([] : Str) = [] from rfl,
                tokensAux_nonws_cons (by decide : jsWs ',' = false)]
              rfl
            | cons d t' =>
              have hd : jsWs d = true := commaCond_pair h rfl
              rw [commaNl_true_ws hd]
              have ht' : t'.length ≤ n := by
                simp only [List.length_cons] at ht
                omega
              rw [(ih t' ht').2 (commaCond_tail (commaCond_tail h)),
                tokensAux_nonws_cons (by decide : jsWs ',' = false),
                tokensAux_ws_cons hd,
                show (([','] : Str).isEmpty = false) from rfl, if_neg (by decide),
                List.singleton_append]
          · rw [commaNl_true_other hw hc, tokensAux_nonws_cons hw,
              tokensAux_nonws_cons hw]
            exact (ih t ht).1 [c] (commaCond_tail h)

theorem tokensOf_commaNl {s : Str} (h : commaCond s = true) :
    tokensOf (commaNl s) = tokensOf s :=
  (commaNl_tokens s.length s le_rfl).1 [] h

theorem tokensOf_dropLeadNl (s : Str) : tokensOf (dropLeadNl s) = tokensOf s := by
  unfold dropLeadNl
  split
  · exact (tokensOf_ws_cons (by decide)).symm
  · rfl

/-- Under the comma condition, the final formatting phase preserves
tokens. -/
theorem tokensOf_postFormat {x : Str} (h : commaCond x = true) :
    tokensOf (postFormat x) = tokensOf x := by
  have hz : tokensOf (dropLeadNl (commaNl x)) = tokensOf x := by
    rw [tokensOf_dropLeadNl]
    exact tokensOf_commaNl h
  have hsplit := List.intercalate_splitOn (dropLeadNl (commaNl x)) '\n'
  unfold postFormat
  cases hs : (dropLeadNl (commaNl x)).splitOn '\n' with
  | nil =>
    rw [hs] at hsplit
    have hznil : dropLeadNl (commaNl x) = [] := by
      rw [← hsplit]
      rfl
    rw [← hz, hznil]
  | cons first rest =>
    rw [hs] at hsplit
    show tokensOf (List.intercalate ['\n'] (jsTrim first :: indentRest rest)) = tokensOf x
    rw [tokensOf_intercalate_nl, List.map_cons, tokensOf_jsTrim, tokensOf_indentRest,
      ← List.map_cons, ← tokensOf_intercalate_nl,
      show List.intercalate ['\n'] (first :: rest) = ['\n'].intercalate (first :: rest) from rfl,
      hsplit]
    exact hz

/-- Phase M1: trim-and-collapse absorbs the final formatting phase, under
the comma condition. -/
theorem collapse_trim_postFormat {x : Str} (h : commaCond x = true) :
    collapseWs (jsTrim (postFormat x)) = collapseWs (jsTrim x) :=
  N_congr (tokensOf_postFormat h)

end C1PostFormat

section C1StageBasics

theorem forall₂_append {α β : Type} {R : α → β → Prop} {a c : List α} :
    ∀ {a' : List β} {c' : List β}, List.Forall₂ R a a' → List.Forall₂ R c c' →
      List.Forall₂ R (a ++ c) (a' ++ c') := by
  intro a' c' h1 h2
  induction h1 with
  | nil => exact h2
  | cons hx h' ih => exact List.Forall₂.cons hx ih

theorem ciRel_trans {a b c : Str} (h1 : CiRel a b) (h2 : CiRel b c) : CiRel a c := by
  induction h1 generalizing c with
  | nil =>
    cases h2
    exact List.Forall₂.nil
  | cons hx h' ih =>
    cases h2 with
    | cons hy h2' => exact List.Forall₂.cons (ciEq_trans hx hy) (ih h2')

theorem stripCI_decomp : ∀ {kw s r : Str}, stripCI kw s = some r →
    ∃ p, s = p ++ r ∧ CiRel kw p := by
  intro kw
  induction kw with
  | nil =>
    intro s r h
    have hs : s = r := by simpa [stripCI] using h
    exact ⟨[], by rw [hs]; rfl, List.Forall₂.nil⟩
  | cons p ps ih =>
    intro s r h
    cases s with
    | nil => exact absurd h (by simp [stripCI])
    | cons c cs =>
      simp only [stripCI] at h
      by_cases hci : ciEq p c = true
      · rw [if_pos hci] at h
        obtain ⟨q, hq, hrel⟩ := ih h
        exact ⟨c :: q, by rw [hq]; rfl, List.Forall₂.cons hci hrel⟩
      · rw [if_neg hci] at h
        exact absurd h (by simp)

theorem stripCI_complete {kw p : Str} (h : CiRel kw p) :
    ∀ r, stripCI kw (p ++ r) = some r := by
  induction h with
  | nil => intro r; rfl
  | cons hci h' ih =>
    intro r
    simp only [List.cons_append, stripCI]
    rw [if_pos hci]
    exact ih r

theorem ciRel_append_split {p r v : Str} (h : CiRel (p ++ r) v) :
    ∃ pv rv, v = pv ++ rv ∧ CiRel p pv ∧ CiRel r rv := by
  induction p generalizing v with
  | nil => exact ⟨[], v, rfl, List.Forall₂.nil, h⟩
  | cons c p' ih =>
    cases h with
    | cons hx h' =>
      rename_i b v'
      obtain ⟨pv, rv, hv, hp, hr⟩ := ih h'
      exact ⟨b :: pv, rv, by rw [hv]; rfl, List.Forall₂.cons hx hp, hr⟩

theorem stripCI_ciRel_some {kw u v r : Str} (huv : CiRel u v)
    (h : stripCI kw u = some r) :
    ∃ rv, stripCI kw v = some rv ∧ CiRel r rv := by
  obtain ⟨p, hu, hkp⟩ := stripCI_decomp h
  subst hu
  obtain ⟨pv, rv, hv, hp, hr⟩ := ciRel_append_split huv
  subst hv
  exact ⟨rv, stripCI_complete (ciRel_trans hkp hp) rv, hr⟩

theorem stripCI_ciRel_none {kw u v : Str} (huv : CiRel u v)
    (h : stripCI kw u = none) : stripCI kw v = none := by
  cases hv : stripCI kw v with
  | none => rfl
  | some rv =>
    obtain ⟨ru, hru, _⟩ := stripCI_ciRel_some (ciRel_symm huv) hv
    rw [h] at hru
    exact absurd hru (by simp)

theorem headSat_ws_ciRel {u v : Str} (h : CiRel u v) :
    headSat jsWs u = headSat jsWs v := by
  cases h with
  | nil => rfl
  | cons hx h' =>
    show jsWs _ = jsWs _
    exact ciEq_jsWs hx

theorem headSat_word_ciRel {u v : Str} (h : CiRel u v) :
    headSat isWordChar u = headSat isWordChar v := by
  cases h with
  | nil => rfl
  | cons hx h' =>
    show isWordChar _ = isWordChar _
    exact ciEq_isWordChar hx

theorem lastW_ciRel {u v : Str} (h : CiRel u v) : ∀ p, lastW p u = lastW p v := by
  induction h with
  | nil => intro p; rfl
  | cons hx h' ih =>
    intro p
    show lastW (isWordChar _) _ = lastW (isWordChar _) _
    rw [ciEq_isWordChar hx]
    exact ih _

theorem takeWhile_nil_of_head {x : Str} (h : headSat jsWs x = false) :
    x.takeWhile jsWs = [] := by
  cases x with
  | nil => rfl
  | cons c t =>
    have hc : jsWs c = false := h
    rw [List.takeWhile_cons, if_neg (ne_true_of_eq_false hc)]

theorem nf_true_head {x : Str} (h : nfAux true x = true) :
    headSat jsWs x = false := by
  cases x with
  | nil => rfl
  | cons c t => exact nfAux_true_cons h

theorem nf_take_drop {c : Char} {t : Str} (hw : jsWs c = true)
    (hnf : nfAux false (c :: t) = true) :
    (c :: t).takeWhile jsWs = [c] ∧ (c :: t).dropWhile jsWs = t := by
  obtain ⟨_, _, hrest⟩ := nfAux_ws hnf hw
  have hh : headSat jsWs t = false := nf_true_head hrest
  constructor
  · rw [List.takeWhile_cons, if_pos hw, takeWhile_nil_of_head hh]
  · rw [List.dropWhile_cons, if_pos hw, dropWhile_id_of_head hh]

/-- `ClassRel` from case-insensitive pointwise equality, when the left
side's whitespace is spaces and newlines. -/
theorem classRel_of_ciRel_flavor {z x : Str} (h : CiRel z x)
    (hf : ∀ c ∈ z, jsWs c = true → nfChar c = true) : ClassRel z x := by
  induction h with
  | nil => exact List.Forall₂.nil
  | cons hx h' ih =>
    rename_i a b z' x'
    refine List.Forall₂.cons ⟨ciEq_jsWs hx, ?_, fun _ => hx⟩
      (ih (fun c hc hwc => hf c (List.mem_cons_of_mem a hc) hwc))
    intro hb
    have hwa : jsWs a = true := by rw [ciEq_jsWs hx]; exact hb
    have := hf a (List.mem_cons_self a z') hwa
    simp only [nfChar, Bool.or_eq_true, decide_eq_true_eq] at this
    rcases this with h' | h'
    · exact Or.inl h'
    · exact Or.inr (Or.inl h')

theorem stepRel_diag : ∀ (xs : Str) (q : List (Char × Char)),
    xs.length = q.length → StepRel (xs.zip xs) q := by
  intro xs
  induction xs with
  | nil =>
    intro q hq
    cases q with
    | nil => exact List.Forall₂.nil
    | cons _ _ => exact absurd hq (by simp)
  | cons x xs' ih =>
    intro q hq
    cases q with
    | nil => exact absurd hq (by simp)
    | cons p q' =>
      simp only [List.length_cons] at hq
      exact List.Forall₂.cons (Or.inr rfl) (ih q' (by omega))

end C1StageBasics

section C1KwNlTry

theorem kwNlTry_nf {kw : Str} {c : Char} {t : Str} (hw : jsWs c = true)
    (hnf : nfAux false (c :: t) = true) :
    kwNlTry kw (c :: t) =
      (match stripCI kw t with
        | some r2 =>
          if (r2.takeWhile jsWs).isEmpty then none
          else some (1 + kw.length + (r2.takeWhile jsWs).length)
        | none => none) := by
  obtain ⟨htk, hdr⟩ := nf_take_drop hw hnf
  unfold kwNlTry
  rw [htk, hdr]
  rfl

theorem kwNlTry_some_elim {kw : Str} {c : Char} {t : Str} {n : Nat}
    (hw : jsWs c = true) (hnf : nfAux false (c :: t) = true)
    (h : kwNlTry kw (c :: t) = some n) :
    ∃ kwt w2 r2', t = kwt ++ w2 :: r2' ∧ CiRel kw kwt ∧ jsWs w2 = true ∧
      headSat jsWs r2' = false ∧ nfAux true r2' = true ∧ n = kw.length + 2 := by
  rw [kwNlTry_nf hw hnf] at h
  cases hs : stripCI kw t with
  | none =>
    rw [hs] at h
    exact absurd h (by simp)
  | some r2 =>
    rw [hs] at h
    have h' : (if (r2.takeWhile jsWs).isEmpty then none
        else some (1 + kw.length + (r2.takeWhile jsWs).length)) = some n := h
    by_cases he : (r2.takeWhile jsWs).isEmpty = true
    · rw [if_pos he] at h'
      exact absurd h' (by simp)
    · rw [if_neg he] at h'
      cases r2 with
      | nil => exact (he rfl).elim
      | cons w2 r2' =>
        have hw2 : jsWs w2 = true := by
          by_contra hw2
          rw [Bool.not_eq_true] at hw2
          rw [List.takeWhile_cons, if_neg (ne_true_of_eq_false hw2)] at he
          exact he rfl
        obtain ⟨kwt, ht, hrel⟩ := stripCI_decomp hs
        obtain ⟨_, _, hnft⟩ := nfAux_ws hnf hw
        have hnfr2 : ∃ q, nfAux q (w2 :: r2') = true := by
          rw [ht] at hnft
          exact nfAux_append hnft
        obtain ⟨q, hq⟩ := hnfr2
        obtain ⟨_, _, hnfr2'⟩ := nfAux_ws hq hw2
        have hhr2' : headSat jsWs r2' = false := nf_true_head hnfr2'
        refine ⟨kwt, w2, r2', ht, hrel, hw2, hhr2', hnfr2', ?_⟩
        rw [List.takeWhile_cons, if_pos hw2, takeWhile_nil_of_head hhr2'] at h'
        have hn := Option.some.inj h'
        simp only [List.length_cons, List.length_nil] at hn
        omega

theorem kwNlTry_some_intro {kw : Str} {cv : Char} {tv kwtv r2v' : Str} {w2v : Char}
    (hw : jsWs cv = true) (ht : tv = kwtv ++ w2v :: r2v') (hrel : CiRel kw kwtv)
    (hkw : kw ≠ []) (hkwhead : headSat jsWs kw = false)
    (hw2 : jsWs w2v = true) (hh : headSat jsWs r2v' = false) :
    kwNlTry kw (cv :: tv) = some (kw.length + 2) := by
  have hhtv : headSat jsWs tv = false := by
    rw [ht]
    cases hrel with
    | nil => exact absurd rfl hkw
    | cons hx hrest2 =>
      rename_i p b kwt2 kwtv2
      show jsWs b = false
      rw [← ciEq_jsWs hx]
      exact hkwhead
  have htk : (cv :: tv).takeWhile jsWs = [cv] := by
    rw [List.takeWhile_cons, if_pos hw, takeWhile_nil_of_head hhtv]
  have hdr : (cv :: tv).dropWhile jsWs = tv := by
    rw [List.dropWhile_cons, if_pos hw, dropWhile_id_of_head hhtv]
  have heval : kwNlTry kw (cv :: tv) =
      (match stripCI kw tv with
        | some r2 =>
          if (r2.takeWhile jsWs).isEmpty then none
          else some (1 + kw.length + (r2.takeWhile jsWs).length)
        | none => none) := by
    unfold kwNlTry
    rw [htk, hdr]
    rfl
  rw [heval, ht, stripCI_complete hrel]
  show (if ((w2v :: r2v').takeWhile jsWs).isEmpty then none
      else some (1 + kw.length + ((w2v :: r2v').takeWhile jsWs).length)) = some (kw.length + 2)
  rw [List.takeWhile_cons, if_pos hw2, takeWhile_nil_of_head hh,
    if_neg (ne_true_of_eq_false (show ([w2v] : Str).isEmpty = false from rfl))]
  congr 1
  simp only [List.length_cons, List.length_nil]
  omega

theorem kwNlTry_none_transfer {kw : Str} {c cv : Char} {t tv : Str} (hw : jsWs c = true)
    (hnf : nfAux false (c :: t) = true) (huv : CiRel (c :: t) (cv :: tv))
    (hnfv : nfAux false (cv :: tv) = true)
    (h : kwNlTry kw (c :: t) = none) : kwNlTry kw (cv :: tv) = none := by
  have hwv : jsWs cv = true := by
    cases huv with
    | cons hx _ =>
      rw [← ciEq_jsWs hx]
      exact hw
  have htv : CiRel t tv := by
    cases huv with
    | cons _ h' => exact h'
  rw [kwNlTry_nf hw hnf] at h
  rw [kwNlTry_nf hwv hnfv]
  cases hs : stripCI kw t with
  | none => rw [stripCI_ciRel_none htv hs]
  | some r2 =>
    rw [hs] at h
    have h' : (if (r2.takeWhile jsWs).isEmpty then none
        else some (1 + kw.length + (r2.takeWhile jsWs).length)) = none := h
    obtain ⟨r2v, hsv, hrel2⟩ := stripCI_ciRel_some htv hs
    rw [hsv]
    show (if (r2v.takeWhile jsWs).isEmpty then none
        else some (1 + kw.length + (r2v.takeWhile jsWs).length)) = none
    by_cases he : (r2.takeWhile jsWs).isEmpty = true
    · have hev : (r2v.takeWhile jsWs).isEmpty = true := by
        cases hrel2 with
        | nil => rfl
        | cons hx hrest =>
          rename_i a b r2' r2v'
          have ha : jsWs a = false := by
            cases haw : jsWs a with
            | false => rfl
            | true =>
              rw [List.takeWhile_cons, if_pos haw] at he
              exact absurd he (by simp)
          have hb : jsWs b = false := by
            rw [← ciEq_jsWs hx]
            exact ha
          rw [takeWhile_nil_of_head (show headSat jsWs (b :: r2v') = false from hb)]
          rfl
      rw [if_pos hev]
    · rw [if_neg he] at h'
      exact absurd h' (by simp)

theorem kwNlAux_skip (kw : Str) : ∀ (a : Str) (k : Nat) (t : Str),
    kwNlAux kw (a.length + k) (a ++ t) = kwNlAux kw k t := by
  intro a
  induction a with
  | nil =>
    intro k t
    rw [show (([] : Str).length + k) = k from by simp]
    rfl
  | cons c a' ih =>
    intro k t
    rw [show ((c :: a').length + k) = (a'.length + k) + 1 from by
      simp only [List.length_cons]
      omega]
    show kwNlAux kw (a'.length + k) (a' ++ t) = kwNlAux kw k t
    exact ih k t

theorem kwNlAux_zero_nonws {kw : Str} {c : Char} {t : Str} (hw : jsWs c = false) :
    kwNlAux kw 0 (c :: t) = c :: kwNlAux kw 0 t := by
  simp only [kwNlAux]
  rw [if_neg (ne_true_of_eq_false hw)]

theorem kwNlAux_zero_ws_none {kw : Str} {c : Char} {t : Str} (hw : jsWs c = true)
    (h : kwNlTry kw (c :: t) = none) :
    kwNlAux kw 0 (c :: t) = c :: kwNlAux kw 0 t := by
  simp only [kwNlAux]
  rw [if_pos hw, h]

theorem kwNlAux_zero_ws_some {kw : Str} {c : Char} {t : Str} {n : Nat}
    (hw : jsWs c = true) (h : kwNlTry kw (c :: t) = some n) :
    kwNlAux kw 0 (c :: t) = '\n' :: (kw ++ (' ' :: kwNlAux kw (n - 1) t)) := by
  simp only [kwNlAux]
  rw [if_pos hw, h]

end C1KwNlTry

section C1KwNlStage

/-- One `\s+KW\s+` pass, run on two case-insensitively equal strings whose
left one is in scan normal form: the outputs are case-insensitively equal,
the left output is classwise related to its input, and each zipped output
position is either untouched or rewritten identically on both sides. -/
theorem stepRel_chunk : ∀ (A iu iv : Str) {Ou Ov ru rv : Str},
    A.length = iu.length → A.length = iv.length →
    StepRel (List.zip Ou Ov) (List.zip ru rv) →
    StepRel (List.zip (A ++ Ou) (A ++ Ov)) (List.zip (iu ++ ru) (iv ++ rv)) := by
  intro A
  induction A with
  | nil =>
    intro iu iv Ou Ov ru rv h1 h2 hs
    cases iu with
    | cons i iu' => exact absurd h1 (by simp)
    | nil =>
      cases iv with
      | cons j iv' => exact absurd h2 (by simp)
      | nil => exact hs
  | cons a A' ih =>
    intro iu iv Ou Ov ru rv h1 h2 hs
    cases iu with
    | nil => exact absurd h1 (by simp)
    | cons i iu' =>
      cases iv with
      | nil => exact absurd h2 (by simp)
      | cons j iv' =>
        show StepRel ((a, a) :: List.zip (A' ++ Ou) (A' ++ Ov))
          ((i, j) :: List.zip (iu' ++ ru) (iv' ++ rv))
        refine List.Forall₂.cons (Or.inr rfl) (ih iu' iv' ?_ ?_ hs)
        · simp only [List.length_cons] at h1
          omega
        · simp only [List.length_cons] at h2
          omega

theorem kwNl_stage (kw : Str) (hkw : kw ≠ []) (hnfkw : nfOk kw = true) :
    ∀ (n : Nat) (u v : Str), u.length ≤ n → CiRel u v → nfAux false u = true →
      CiRel (kwNlAux kw 0 u) (kwNlAux kw 0 v) ∧
      ClassRel (kwNlAux kw 0 u) u ∧
      StepRel (List.zip (kwNlAux kw 0 u) (kwNlAux kw 0 v)) (List.zip u v) := by
  have hkwhead : headSat jsWs kw = false :=
    nf_true_head (nfAux_true_of_nfOk hnfkw hkw)
  have hkwflav : ∀ ch ∈ kw, jsWs ch = true → nfChar ch = true :=
    nfAux_mem_flavor (nfAux_true_of_nfOk hnfkw hkw)
  intro n
  induction n with
  | zero =>
    intro u v hu huv _
    have hnil : u = [] := List.length_eq_zero.mp (Nat.le_zero.mp hu)
    subst hnil
    cases huv
    exact ⟨List.Forall₂.nil, List.Forall₂.nil, List.Forall₂.nil⟩
  | succ n ih =>
    intro u v hu huv hnf
    cases huv with
    | nil => exact ⟨List.Forall₂.nil, List.Forall₂.nil, List.Forall₂.nil⟩
    | cons hx huv' =>
      rename_i c cv t tv
      by_cases hw : jsWs c = true
      · have hwv : jsWs cv = true := by rw [← ciEq_jsWs hx]; exact hw
        cases hm : kwNlTry kw (c :: t) with
        | none =>
          have hmv : kwNlTry kw (cv :: tv) = none :=
            kwNlTry_none_transfer hw hnf (List.Forall₂.cons hx huv')
              (nfAux_ciRel (List.Forall₂.cons hx huv') hnf) hm
          rw [kwNlAux_zero_ws_none hw hm, kwNlAux_zero_ws_none hwv hmv]
          obtain ⟨_, _, hrest⟩ := nfAux_ws hnf hw
          have ht : t.length ≤ n := by
            simp only [List.length_cons] at hu
            omega
          obtain ⟨ihc, ihcl, ihs⟩ := ih t tv ht huv' (nfAux_false_of_true hrest)
          exact ⟨List.Forall₂.cons hx ihc,
            List.Forall₂.cons (classRelP_refl c) ihcl,
            List.Forall₂.cons (Or.inl rfl) ihs⟩
        | some m =>
          obtain ⟨kwt, w2, r2', htt, hrelk, hw2, hhr2', hnfr2', hm2⟩ :=
            kwNlTry_some_elim hw hnf hm
          subst hm2
          subst htt
          obtain ⟨kwtv, rv, hvv, hpk, hrr⟩ := ciRel_append_split huv'
          subst hvv
          cases hrr with
          | cons hw2x hrr' =>
            rename_i w2v r2v'
            have hw2v : jsWs w2v = true := by rw [← ciEq_jsWs hw2x]; exact hw2
            have hhv : headSat jsWs r2v' = false := by
              cases hrr' with
              | nil => rfl
              | cons hy hrest3 =>
                show jsWs _ = false
                rw [← ciEq_jsWs hy]
                exact hhr2'
            have hmv : kwNlTry kw (cv :: (kwtv ++ w2v :: r2v')) = some (kw.length + 2) :=
              kwNlTry_some_intro hwv rfl (ciRel_trans hrelk hpk) hkw hkwhead hw2v hhv
            rw [kwNlAux_zero_ws_some hw hm, kwNlAux_zero_ws_some hwv hmv]
            have hlen1 : kw.length = kwt.length := hrelk.length_eq
            have hlen2 : kw.length = kwtv.length := (ciRel_trans hrelk hpk).length_eq
            have hskipu : kwNlAux kw (kw.length + 2 - 1) (kwt ++ w2 :: r2') =
                kwNlAux kw 0 r2' := by
              rw [show kwt ++ w2 :: r2' = (kwt ++ [w2]) ++ r2' from by simp,
                show kw.length + 2 - 1 = (kwt ++ [w2]).length + 0 from by
                  simp [List.length_append, List.length_cons]
                  omega,
                kwNlAux_skip]
            have hskipv : kwNlAux kw (kw.length + 2 - 1) (kwtv ++ w2v :: r2v') =
                kwNlAux kw 0 r2v' := by
              rw [show kwtv ++ w2v :: r2v' = (kwtv ++ [w2v]) ++ r2v' from by simp,
                show kw.length + 2 - 1 = (kwtv ++ [w2v]).length + 0 from by
                  simp [List.length_append, List.length_cons]
                  omega,
                kwNlAux_skip]
            rw [hskipu, hskipv]
            have hr2len : r2'.length ≤ n := by
              simp only [List.length_cons, List.length_append] at hu
              omega
            obtain ⟨ihc, ihcl, ihs⟩ := ih r2' r2v' hr2len hrr'
              (nfAux_false_of_true hnfr2')
            refine ⟨?_, ?_, ?_⟩
            · exact List.Forall₂.cons (ciEq_refl _)
                (forall₂_append (ciRel_refl kw) (List.Forall₂.cons (ciEq_refl _) ihc))
            · refine List.Forall₂.cons
                ⟨by rw [hw]; rfl, fun _ => Or.inr (Or.inl rfl),
                  fun hf => absurd (hw.symm.trans hf) (by decide)⟩
                (forall₂_append (classRel_of_ciRel_flavor hrelk hkwflav)
                  (List.Forall₂.cons
                    ⟨by rw [hw2]; rfl, fun _ => Or.inl rfl,
                      fun hf => absurd (hw2.symm.trans hf) (by decide)⟩
                    ihcl))
            · rw [show ('\n' :: (kw ++ (' ' :: kwNlAux kw 0 r2'))) =
                  (('\n' :: kw) ++ [' ']) ++ kwNlAux kw 0 r2' from by simp,
                show ('\n' :: (kw ++ (' ' :: kwNlAux kw 0 r2v'))) =
                  (('\n' :: kw) ++ [' ']) ++ kwNlAux kw 0 r2v' from by simp,
                show (c :: (kwt ++ w2 :: r2')) = ((c :: kwt) ++ [w2]) ++ r2' from by simp,
                show (cv :: (kwtv ++ w2v :: r2v')) =
                  ((cv :: kwtv) ++ [w2v]) ++ r2v' from by simp]
              refine stepRel_chunk (('\n' :: kw) ++ [' ']) ((c :: kwt) ++ [w2])
                ((cv :: kwtv) ++ [w2v]) ?_ ?_ ihs
              · simp only [List.length_append, List.length_cons]
                omega
              · simp only [List.length_append, List.length_cons]
                omega
      · rw [Bool.not_eq_true] at hw
        have hwv : jsWs cv = false := by rw [← ciEq_jsWs hx]; exact hw
        rw [kwNlAux_zero_nonws hw, kwNlAux_zero_nonws hwv]
        have ht : t.length ≤ n := by
          simp only [List.length_cons] at hu
          omega
        obtain ⟨ihc, ihcl, ihs⟩ := ih t tv ht huv' (nfAux_nonws hnf hw)
        exact ⟨List.Forall₂.cons hx ihc,
          List.Forall₂.cons (classRelP_refl c) ihcl,
          List.Forall₂.cons (Or.inl rfl) ihs⟩

end C1KwNlStage

section C1CapKwStage

theorem capKwAux_skip (kw : Str) : ∀ (a : Str) (pw : Bool) (k : Nat) (t : Str),
    capKwAux kw (a.length + k) pw (a ++ t) = capKwAux kw k (lastW pw a) t := by
  intro a
  induction a with
  | nil =>
    intro pw k t
    rw [show (([] : Str).length + k) = k from by simp]
    rfl
  | cons c a' ih =>
    intro pw k t
    rw [show ((c :: a').length + k) = (a'.length + k) + 1 from by
      simp only [List.length_cons]
      omega]
    show capKwAux kw (a'.length + k) (isWordChar c) (a' ++ t) = capKwAux kw k (lastW pw (c :: a')) t
    exact ih (isWordChar c) k t

theorem capKwAux_zero_match {kw : Str} {c : Char} {t : Str} {pw : Bool}
    (hm : (!pw && capMatchAt kw (c :: t)) = true) :
    capKwAux kw 0 pw (c :: t) = kw ++ capKwAux kw (kw.length - 1) (isWordChar c) t := by
  simp only [capKwAux]
  rw [if_pos hm]

theorem capKwAux_zero_nomatch {kw : Str} {c : Char} {t : Str} {pw : Bool}
    (hm : (!pw && capMatchAt kw (c :: t)) = false) :
    capKwAux kw 0 pw (c :: t) = c :: capKwAux kw 0 (isWordChar c) t := by
  simp only [capKwAux]
  rw [if_neg (ne_true_of_eq_false hm)]

theorem capMatchAt_ciRel {kw u v : Str} (h : CiRel u v) :
    capMatchAt kw u = capMatchAt kw v := by
  unfold capMatchAt
  cases hs : stripCI kw u with
  | none =>
    rw [stripCI_ciRel_none h hs]
  | some r =>
    obtain ⟨rv, hsv, hr⟩ := stripCI_ciRel_some h hs
    rw [hsv]
    show (!kw.isEmpty && !headSat isWordChar r) = (!kw.isEmpty && !headSat isWordChar rv)
    rw [headSat_word_ciRel hr]

theorem capMatchAt_elim {kw c t} (h : capMatchAt kw (c :: t) = true) :
    ∃ r, stripCI kw (c :: t) = some r ∧ headSat isWordChar r = false := by
  unfold capMatchAt at h
  cases hs : stripCI kw (c :: t) with
  | none =>
    rw [hs] at h
    exact absurd h (by simp)
  | some r =>
    rw [hs] at h
    have h' : (!kw.isEmpty && !headSat isWordChar r) = true := h
    refine ⟨r, rfl, ?_⟩
    simp only [Bool.and_eq_true, Bool.not_eq_true'] at h'
    exact h'.2

/-- One `\bKW\b` capitalization pass, run on two case-insensitively equal
strings with the same previous word-character state. -/
theorem capKw_stage (kw : Str) (hkw : kw ≠ []) (hnfkw : nfOk kw = true) :
    ∀ (n : Nat) (u v : Str) (pw : Bool), u.length ≤ n → CiRel u v →
      CiRel (capKwAux kw 0 pw u) (capKwAux kw 0 pw v) ∧
      ClassRel (capKwAux kw 0 pw u) u ∧
      StepRel (List.zip (capKwAux kw 0 pw u) (capKwAux kw 0 pw v)) (List.zip u v) := by
  have hkwflav : ∀ ch ∈ kw, jsWs ch = true → nfChar ch = true :=
    nfAux_mem_flavor (nfAux_true_of_nfOk hnfkw hkw)
  intro n
  induction n with
  | zero =>
    intro u v pw hu huv
    have hnil : u = [] := List.length_eq_zero.mp (Nat.le_zero.mp hu)
    subst hnil
    cases huv
    exact ⟨List.Forall₂.nil, List.Forall₂.nil, List.Forall₂.nil⟩
  | succ n ih =>
    intro u v pw hu huv
    cases huv with
    | nil => exact ⟨List.Forall₂.nil, List.Forall₂.nil, List.Forall₂.nil⟩
    | cons hx huv' =>
      rename_i c cv t tv
      by_cases hm : (!pw && capMatchAt kw (c :: t)) = true
      · have hcm : capMatchAt kw (c :: t) = true := by
          simp only [Bool.and_eq_true] at hm
          exact hm.2
        obtain ⟨r, hs, hhw⟩ := capMatchAt_elim hcm
        obtain ⟨kwt, hct, hrelk⟩ := stripCI_decomp hs
        cases kwt with
        | nil =>
          cases hrelk
          exact absurd rfl hkw
        | cons c0 kwt' =>
          rw [List.cons_append] at hct
          injection hct with hc0 ht'
          subst hc0
          subst ht'
          have hmv : (!pw && capMatchAt kw (cv :: tv)) = true := by
            rw [← capMatchAt_ciRel (List.Forall₂.cons hx huv')]
            exact hm
          rw [capKwAux_zero_match hm, capKwAux_zero_match hmv]
          obtain ⟨kwtv', rv, hvv, hpk', hrr⟩ := ciRel_append_split huv'
          subst hvv
          have hlen : kw.length = kwt'.length + 1 := by
            have := hrelk.length_eq
            simp only [List.length_cons] at this
            exact this
          have hlen2 : kwt'.length = kwtv'.length := hpk'.length_eq
          have hskipu : capKwAux kw (kw.length - 1) (isWordChar c) (kwt' ++ r) =
              capKwAux kw 0 (lastW (isWordChar c) kwt') r := by
            rw [show kw.length - 1 = kwt'.length + 0 from by omega, capKwAux_skip]
          have hskipv : capKwAux kw (kw.length - 1) (isWordChar cv) (kwtv' ++ rv) =
              capKwAux kw 0 (lastW (isWordChar cv) kwtv') rv := by
            rw [show kw.length - 1 = kwtv'.length + 0 from by omega, capKwAux_skip]
          have hstate : lastW (isWordChar cv) kwtv' = lastW (isWordChar c) kwt' := by
            rw [← ciEq_isWordChar hx, ← lastW_ciRel hpk']
          rw [hskipu, hskipv, hstate]
          have hrlen : r.length ≤ n := by
            simp only [List.length_cons, List.length_append] at hu
            omega
          obtain ⟨ihc, ihcl, ihs⟩ := ih r rv (lastW (isWordChar c) kwt') hrlen hrr
          refine ⟨forall₂_append (ciRel_refl kw) ihc, ?_, ?_⟩
          · exact forall₂_append (classRel_of_ciRel_flavor hrelk hkwflav)
              ihcl
          · exact stepRel_chunk kw (c :: kwt') (cv :: kwtv')
              (by simp only [List.length_cons]; omega)
              (by simp only [List.length_cons]; omega) ihs
      · rw [Bool.not_eq_true] at hm
        have hmv : (!pw && capMatchAt kw (cv :: tv)) = false := by
          rw [← capMatchAt_ciRel (List.Forall₂.cons hx huv')]
          exact hm
        rw [capKwAux_zero_nomatch hm, capKwAux_zero_nomatch hmv,
          show isWordChar cv = isWordChar c from (ciEq_isWordChar hx).symm]
        have ht : t.length ≤ n := by
          simp only [List.length_cons] at hu
          omega
        obtain ⟨ihc, ihcl, ihs⟩ := ih t tv (isWordChar c) ht huv'
        exact ⟨List.Forall₂.cons hx ihc,
          List.Forall₂.cons (classRelP_refl c) ihcl,
          List.Forall₂.cons (Or.inl rfl) ihs⟩

end C1CapKwStage

section C1Fold

/-- Side condition on a keyword: nonempty and in normal form. -/
def kwSide (kw : Str) : Bool := !kw.isEmpty && nfOk kw

theorem ne_nil_of_isEmpty_false {α : Type} {l : List α} (h : l.isEmpty = false) :
    l ≠ [] := by
  cases l with
  | nil => exact absurd h (by simp)
  | cons a l' => exact List.cons_ne_nil a l'

theorem kwSide_elim {kw : Str} (h : kwSide kw = true) : kw ≠ [] ∧ nfOk kw = true := by
  simp only [kwSide, Bool.and_eq_true, Bool.not_eq_true'] at h
  exact ⟨ne_nil_of_isEmpty_false h.1, h.2⟩

theorem majorKeywords_side : ∀ kw ∈ majorKeywords, kwSide kw = true := by decide

theorem kwNl_fold (kws : List Str) (hside : ∀ kw ∈ kws, kwSide kw = true) :
    ∀ u v : Str, CiRel u v → nfAux false u = true →
      CiRel (kws.foldl (fun acc kw => kwNl kw acc) u)
        (kws.foldl (fun acc kw => kwNl kw acc) v) ∧
      ClassRel (kws.foldl (fun acc kw => kwNl kw acc) u) u ∧
      nfAux false (kws.foldl (fun acc kw => kwNl kw acc) u) = true ∧
      StepRel
        (List.zip (kws.foldl (fun acc kw => kwNl kw acc) u)
          (kws.foldl (fun acc kw => kwNl kw acc) v))
        (List.zip u v) := by
  induction kws with
  | nil =>
    intro u v huv hnf
    exact ⟨huv, classRel_refl u, hnf, stepRel_refl _⟩
  | cons kw kws' ih =>
    intro u v huv hnf
    obtain ⟨hne, hnfkw⟩ := kwSide_elim (hside kw (List.mem_cons_self kw kws'))
    obtain ⟨h1, h2, h3⟩ := kwNl_stage kw hne hnfkw u.length u v le_rfl huv hnf
    have hnf' : nfAux false (kwNl kw u) = true := nfAux_classRel h2 hnf
    obtain ⟨g1, g2, g3, g4⟩ := ih (fun k hk => hside k (List.mem_cons_of_mem kw hk))
      (kwNl kw u) (kwNl kw v) h1 hnf'
    rw [List.foldl_cons, List.foldl_cons]
    exact ⟨g1, classRel_trans g2 h2, g3, stepRel_trans g4 h3⟩

theorem capKw_fold (kws : List Str) (hside : ∀ kw ∈ kws, kwSide kw = true) :
    ∀ u v : Str, CiRel u v →
      CiRel (kws.foldl (fun acc kw => capKw kw acc) u)
        (kws.foldl (fun acc kw => capKw kw acc) v) ∧
      ClassRel (kws.foldl (fun acc kw => capKw kw acc) u) u ∧
      StepRel
        (List.zip (kws.foldl (fun acc kw => capKw kw acc) u)
          (kws.foldl (fun acc kw => capKw kw acc) v))
        (List.zip u v) := by
  induction kws with
  | nil =>
    intro u v huv
    exact ⟨huv, classRel_refl u, stepRel_refl _⟩
  | cons kw kws' ih =>
    intro u v huv
    obtain ⟨hne, hnfkw⟩ := kwSide_elim (hside kw (List.mem_cons_self kw kws'))
    obtain ⟨h1, h2, h3⟩ := capKw_stage kw hne hnfkw u.length u v false le_rfl huv
    obtain ⟨g1, g2, g3⟩ := ih (fun k hk => hside k (List.mem_cons_of_mem kw hk))
      (capKw kw u) (capKw kw v) h1
    rw [List.foldl_cons, List.foldl_cons]
    exact ⟨g1, classRel_trans g2 h2, stepRel_trans g3 h3⟩

/-- The combined keyword phase (newline insertion then capitalization),
run in lockstep on two case-insensitively equal inputs whose left one is
in scan normal form. -/
theorem U_stage {u v : Str} (huv : CiRel u v) (hnf : nfAux false u = true) :
    CiRel (capAll (kwNlAll u)) (capAll (kwNlAll v)) ∧
    ClassRel (capAll (kwNlAll u)) u ∧
    StepRel (List.zip (capAll (kwNlAll u)) (capAll (kwNlAll v))) (List.zip u v) := by
  obtain ⟨h1, h2, h3, h4⟩ := kwNl_fold majorKeywords majorKeywords_side u v huv hnf
  obtain ⟨g1, g2, g3⟩ := capKw_fold majorKeywords majorKeywords_side
    (kwNlAll u) (kwNlAll v) h1
  exact ⟨g1, classRel_trans g2 h2, stepRel_trans g3 h4⟩

end C1Fold

section C1Main

theorem commaCond_classRel {z x : Str} (hr : ClassRel z x) (h : commaCond x = true) :
    commaCond z = true := by
  induction hr with
  | nil => rfl
  | cons hab hr' ih =>
    rename_i a b z' x'
    cases hr' with
    | nil => rfl
    | cons hcd hr'' =>
      rename_i c d z'' x''
      refine commaCond_cons ?_ (ih (commaCond_tail h))
      intro hac
      obtain ⟨hwab, _, hciab⟩ := hab
      obtain ⟨hwcd, _, _⟩ := hcd
      have hwa : jsWs a = false := by rw [hac]; decide
      have hwb : jsWs b = false := by rw [← hwab]; exact hwa
      have hb : b = ',' := (ciEq_comma (hciab hwb)).mp hac
      have hwd : jsWs d = true := commaCond_pair h hb
      rw [hwcd]
      exact hwd

theorem ciRel_flat_of_classRel {z y : Str} (hcl : ClassRel z y)
    (hsp : ∀ c ∈ y, jsWs c = true → c = ' ') : CiRel (flat z) y := by
  induction hcl with
  | nil => exact List.Forall₂.nil
  | cons hab h' ih =>
    rename_i a b z' y'
    obtain ⟨hwcl, _, hci⟩ := hab
    refine List.Forall₂.cons ?_ (ih (fun c hc hwc => hsp c (List.mem_cons_of_mem b hc) hwc))
    show ciEq (flatC a) b = true
    by_cases hwb : jsWs b = true
    · have hb : b = ' ' := hsp b (List.mem_cons_self b y') hwb
      have hwa : jsWs a = true := by rw [hwcl]; exact hwb
      unfold flatC
      rw [if_pos hwa, hb]
      exact ciEq_refl ' '
    · rw [Bool.not_eq_true] at hwb
      have hwa : jsWs a = false := by rw [hwcl]; exact hwb
      unfold flatC
      rw [if_neg (ne_true_of_eq_false hwa)]
      exact hci hwb

/-- The keyword phase is a fixed point on the flattening of its own output
(on a normal-form all-space-whitespace input). -/
theorem U_idem {y : Str} (hnf : nfOk y = true)
    (hsp : ∀ c ∈ y, jsWs c = true → c = ' ') :
    capAll (kwNlAll (flat (capAll (kwNlAll y)))) = capAll (kwNlAll y) := by
  obtain ⟨_, hcl, _⟩ := U_stage (ciRel_refl y) (nfAux_false_of_nfOk hnf)
  have hciry : CiRel (flat (capAll (kwNlAll y))) y := ciRel_flat_of_classRel hcl hsp
  have hnff : nfAux false (flat (capAll (kwNlAll y))) = true :=
    nfAux_ciRel (ciRel_symm hciry) (nfAux_false_of_nfOk hnf)
  obtain ⟨_, hcl2, hst⟩ := U_stage hciry hnff
  generalize hgw : capAll (kwNlAll y) = w at hcl hciry hcl2 hst ⊢
  generalize hgu : capAll (kwNlAll (flat w)) = U2 at hcl2 hst ⊢
  have hl0 : w.length = y.length := hcl.length_eq
  have hlf : (flat w).length = y.length := hciry.length_eq
  have hl1 : U2.length = (flat w).length := hcl2.length_eq
  apply List.ext_getElem (by rw [hl1, hlf, hl0])
  intro i hi1 hi2
  have hbf : i < (flat w).length := by omega
  have hby : i < y.length := by omega
  obtain ⟨hzlen, hget⟩ := List.forall₂_iff_get.mp hst
  have hiz1 : i < (List.zip U2 w).length := by
    rw [List.length_zip]
    exact lt_min_iff.mpr ⟨hi1, hi2⟩
  have hiz2 : i < (List.zip (flat w) y).length := by
    rw [List.length_zip]
    exact lt_min_iff.mpr ⟨hbf, hby⟩
  have hr := hget i hiz1 hiz2
  have hz1 : (List.zip U2 w).get ⟨i, hiz1⟩ = (U2[i], w[i]) := by
    rw [List.get_eq_getElem, List.getElem_zip]
  have hz2 : (List.zip (flat w) y).get ⟨i, hiz2⟩ = ((flat w)[i], y[i]) := by
    rw [List.get_eq_getElem, List.getElem_zip]
  rw [hz1, hz2] at hr
  have h3 : (flat w)[i] = flatC (w[i]) := List.getElem_map flatC
  have h5 : flatC (y[i]) = y[i] := by
    by_cases hwy : jsWs (y[i]) = true
    · have hy' : y[i] = ' ' := hsp (y[i]) (List.getElem_mem hby) hwy
      unfold flatC
      rw [if_pos hwy]
      exact hy'.symm
    · rw [Bool.not_eq_true] at hwy
      unfold flatC
      rw [if_neg (ne_true_of_eq_false hwy)]
  rcases hr with heq | hdiag
  · have h1 : U2[i] = (flat w)[i] := congrArg Prod.fst heq
    have h2 : w[i] = y[i] := congrArg Prod.snd heq
    calc U2[i] = (flat w)[i] := h1
      _ = flatC (w[i]) := h3
      _ = flatC (y[i]) := by rw [h2]
      _ = y[i] := h5
      _ = w[i] := h2.symm
  · exact hdiag

/-- C1 (amended): `formatSQL` is idempotent on every input in which each
comma is immediately followed by a whitespace character or ends the
string. -/
theorem formatSQL_idempotent_commaCond (sql : Str) (h : commaCond sql = true) :
    formatSQL (formatSQL sql) = formatSQL sql := by
  have hnfy : nfOk (collapseWs (jsTrim sql)) = true := nfOk_N sql
  have hspy : ∀ c ∈ collapseWs (jsTrim sql), jsWs c = true → c = ' ' :=
    fun c hc => collapse_ws_sp (jsTrim sql) false c hc
  obtain ⟨_, hcl, _⟩ := U_stage (ciRel_refl (collapseWs (jsTrim sql)))
    (nfAux_false_of_nfOk hnfy)
  have hccU : commaCond (capAll (kwNlAll (collapseWs (jsTrim sql)))) = true :=
    commaCond_classRel hcl (commaCond_N h)
  have hnfU : nfOk (capAll (kwNlAll (collapseWs (jsTrim sql)))) = true :=
    nfOk_classRel hcl hnfy
  show postFormat (capAll (kwNlAll (collapseWs (jsTrim (formatSQL sql))))) = formatSQL sql
  rw [show formatSQL sql = postFormat (capAll (kwNlAll (collapseWs (jsTrim sql)))) from rfl,
    collapse_trim_postFormat hccU, N_flat_nf hnfU, U_idem hnfy hspy]

/-- C1 (amended) witness: a concrete comma-spaced query on which the
theorem applies. -/
theorem formatSQL_idempotent_commaCond_witness :
    commaCond ("select id, name from users where id = 1".toList) = true ∧
    formatSQL (formatSQL ("select id, name from users where id = 1".toList)) =
      formatSQL ("select id, name from users where id = 1".toList) :=
  ⟨by decide, formatSQL_idempotent_commaCond _ (by decide)⟩

end C1Main
